import Mathlib

/-!
Verification development for the `client-dag` dependency-graph library.

The embedding models:
* `buildLeveledDAG` (src/dag/traversal.ts) — Kahn's algorithm with level
  assignment and cycle detection, plus `getTopologicalOrder`;
* `executeDAG`, `executeDAGSequential`, `createProcessor`
  (src/dag/executor.ts) — the level-sequential executor with fail-fast
  semantics, and the bounded-concurrency batch runner
  `executeWithConcurrency`;
* `getAncestors`, `getDescendants` (src/dag/builder.ts) — reverse/forward
  DFS closures.

A JavaScript `Map<string, TNode>` is modelled as a `List DAGNode` in map
iteration (insertion) order; key uniqueness (guaranteed by `Map`) is the
well-formedness predicate `wfNodes`.  Mutable in-degree counters become a
function `String → Int` updated functionally; the `while` loop of Kahn's
algorithm is run on explicit fuel (`nodes.length + 1`), which is proved
sufficient for every well-formed map, so the `outOfFuel` branch is
unreachable.
-/

/-- A node of the dependency DAG: `DAGNode` from src/types.ts.  The optional
`level` field is not stored here; the level assignment is returned in the
`DependencyDAG.levels` structure instead (the source mutates it in place). -/
structure DAGNode where
  id : String
  dependencies : List String
deriving Repr, DecidableEq

/-- A `Map<string, TNode>` in iteration order. -/
abbrev NodeMap := List DAGNode

/-- The keys of the map, in iteration order. -/
def nodeIds (nodes : NodeMap) : List String := nodes.map (·.id)

/-- Well-formedness of the map model: keys are unique (a JavaScript `Map`
guarantees this by construction). -/
def wfNodes (nodes : NodeMap) : Prop := (nodeIds nodes).Nodup

instance (nodes : NodeMap) : Decidable (wfNodes nodes) := by
  unfold wfNodes; infer_instance

/-- Model of `nodes.has(x)`. -/
def hasNode (nodes : NodeMap) (x : String) : Bool := (nodeIds nodes).contains x

/-- Model of `nodes.get(x)`. -/
def getNode (nodes : NodeMap) (x : String) : Option DAGNode :=
  nodes.find? (fun nd => nd.id == x)

/-- The dependency list of the node keyed `x` (empty for a missing key). -/
def depsOf (nodes : NodeMap) (x : String) : List String :=
  ((getNode nodes x).map (·.dependencies)).getD []

/-- Model of `node.dependencies.filter((dep) => nodes.has(dep))`: the in-graph
dependencies of `x`, with multiplicity. -/
def inGraphDeps (nodes : NodeMap) (x : String) : List String :=
  (depsOf nodes x).filter (fun d => hasNode nodes d)

/-- The initial in-degree of `x`: `depsInDag.length`.  Kept as `Int` because
the source decrements a JavaScript number. -/
def initDeg (nodes : NodeMap) (x : String) : Int :=
  ((inGraphDeps nodes x).length : Int)

/-- Model of `dependents.get(x)` after the reverse-edge construction: the keys (in map
iteration order) of nodes whose dependency list mentions `x`; the map only has
entries for in-map keys (`dependents.has(dep)` guard), hence the `hasNode`
test.  The `Set` deduplicates, which the `filter` over the duplicate-free key
list reproduces. -/
def dependentsOf (nodes : NodeMap) (x : String) : List String :=
  if hasNode nodes x then
    (nodeIds nodes).filter (fun n => (depsOf nodes n).contains x)
  else []

/-- The inner loop `for (const dependent of dependents.get(name))`: decrement
each listed in-degree and push a dependent whose degree reaches exactly 0 onto
the next frontier. -/
def decDeps : List String → ((String → Int) × List String) → ((String → Int) × List String)
  | [], st => st
  | d :: rest, st =>
    let deg := st.1 d - 1
    let degF : String → Int := fun x => if x = d then deg else st.1 x
    decDeps rest (degF, if deg = 0 then st.2 ++ [d] else st.2)

/-- The loop `for (const name of queue)` of one `while` iteration: process each
frontier member's dependents. -/
def processQueue (nodes : NodeMap) : List String → ((String → Int) × List String) → ((String → Int) × List String)
  | [], st => st
  | x :: rest, st => processQueue nodes rest (decDeps (dependentsOf nodes x) st)

/-- The `while (queue.length > 0)` loop, on fuel.  Each iteration turns the
current frontier into the next level and computes the following frontier. -/
def kahnLoop (nodes : NodeMap) : Nat → List String → (String → Int) → List (List String) → Option (List (List String))
  | fuel, queue, inDeg, levels =>
    if queue.isEmpty then some levels
    else
      match fuel with
      | 0 => none
      | f + 1 =>
        let st := processQueue nodes queue (inDeg, [])
        kahnLoop nodes f st.2 st.1 (levels ++ [queue])

/-- Failure modes of `buildLeveledDAG`: the thrown
`"Circular dependency detected involving: <ids>"` error (carrying the listed
identifiers), or exhaustion of the modelling fuel (proved unreachable for
well-formed maps). -/
inductive BuildError where
  | cycle (ids : List String)
  | outOfFuel
deriving Repr, DecidableEq

/-- The `DependencyDAG` result (src/types.ts); `nodes` is the caller's map and
is omitted, levels are recorded as identifier lists. -/
structure DependencyDAG where
  levels : List (List String)
  roots : List String
  leaves : List String
deriving Repr, DecidableEq

/-- Identifiers with an empty dependent set. -/
def rootsOf (nodes : NodeMap) : List String :=
  (nodeIds nodes).filter (fun n => (dependentsOf nodes n).isEmpty)

/-- Identifiers with no in-graph dependencies. -/
def leavesOf (nodes : NodeMap) : List String :=
  (nodeIds nodes).filter (fun n => (inGraphDeps nodes n).isEmpty)

/-- The initial frontier: all keys of in-degree zero, in map iteration
order. -/
def kahnSeed (nodes : NodeMap) : List String :=
  (nodeIds nodes).filter (fun n => initDeg nodes n == 0)

/-- Model of `buildLeveledDAG` from src/dag/traversal.ts. -/
def buildLeveledDAG (nodes : NodeMap) : Except BuildError DependencyDAG :=
  match kahnLoop nodes (nodes.length + 1) (kahnSeed nodes) (fun n => initDeg nodes n) [] with
  | none => .error .outOfFuel
  | some levels =>
    if levels.flatten.length = nodes.length then
      .ok ⟨levels, rootsOf nodes, leavesOf nodes⟩
    else
      .error (.cycle ((nodeIds nodes).filter (fun n => !(levels.flatten.contains n))))

/-- The number of decrements applied to `n`'s in-degree while processing the
frontier `Q`: one per frontier member whose dependent set lists `n`. -/
def hitsIn (nodes : NodeMap) (Q : List String) (n : String) : Int :=
  ((Q.filter (fun x => (dependentsOf nodes x).contains n)).length : Int)

/-- The number of already-processed identifiers appearing in `n`'s dependency
list (each processed identifier is decremented from `n`'s degree exactly
once). -/
def countDepsIn (nodes : NodeMap) (F : List String) (n : String) : Int :=
  ((F.filter (fun x => (depsOf nodes n).contains x)).length : Int)

/-- The loop invariant of Kahn's algorithm, relating the levels built so far,
the pending frontier, and the current in-degree table. -/
structure KahnInv (nodes : NodeMap) (levels : List (List String)) (queue : List String)
    (deg : String → Int) : Prop where
  nodupAll : (levels.flatten ++ queue).Nodup
  subIds : ∀ x ∈ levels.flatten ++ queue, x ∈ nodeIds nodes
  degEq : ∀ n ∈ nodeIds nodes, deg n = initDeg nodes n - countDepsIn nodes levels.flatten n
  procNonpos : ∀ n ∈ levels.flatten, deg n ≤ 0
  queueZero : ∀ n ∈ queue, deg n = 0
  blockedNonzero : ∀ n ∈ nodeIds nodes, n ∉ levels.flatten → n ∉ queue → deg n ≠ 0
  levelDeps : ∀ (k : Nat) (hk : k < levels.length), ∀ n ∈ levels.get ⟨k, hk⟩,
    ∀ d ∈ inGraphDeps nodes n, d ∈ (levels.take k).flatten
  levelPrev : ∀ (k : Nat) (hk : k < levels.length), 1 ≤ k → ∀ n ∈ levels.get ⟨k, hk⟩,
    ∃ x ∈ levels.get ⟨k - 1, by omega⟩, (depsOf nodes n).contains x = true
  queueDeps : ∀ n ∈ queue, ∀ d ∈ inGraphDeps nodes n, d ∈ levels.flatten
  queuePrev : ∀ n ∈ queue, ∀ L, levels.getLast? = some L →
    ∃ x ∈ L, (depsOf nodes n).contains x = true

/-- Model of `getTopologicalOrder`: `dag.levels.flat()`. -/
def getTopologicalOrder (dag : DependencyDAG) : List String := dag.levels.flatten

instance {ε α : Type} [DecidableEq ε] [DecidableEq α] : DecidableEq (Except ε α) := fun x y =>
  match x, y with
  | .error e, .error f => decidable_of_iff (e = f) (by simp)
  | .ok a, .ok b => decidable_of_iff (a = b) (by simp)
  | .error _, .ok _ => isFalse (by simp)
  | .ok _, .error _ => isFalse (by simp)

/-! ## Reachability along declared dependencies

Used to state acyclicity and cycle membership at the specification level. -/

/-- One in-graph dependency edge: `m` declares `d` and `d` is a map key. -/
def stepDepIn (nodes : NodeMap) (m d : String) : Bool :=
  (depsOf nodes m).contains d && hasNode nodes d

/-- Predicate `reachesWithin nodes f m d`: there is a path of 1 to `f + 1`
in-graph dependency edges from `m` to `d`. -/
def reachesWithin (nodes : NodeMap) : Nat → String → String → Bool
  | 0, m, d => stepDepIn nodes m d
  | f + 1, m, d =>
    stepDepIn nodes m d ||
      (nodeIds nodes).any (fun k => stepDepIn nodes m k && reachesWithin nodes f k d)

/-- The map contains a dependency cycle: some key reaches itself.  Paths of
length up to `nodes.length + 1` suffice because longer paths repeat a key. -/
def hasCycle (nodes : NodeMap) : Bool :=
  (nodeIds nodes).any (fun n => reachesWithin nodes nodes.length n n)

/-- The keys lying on a dependency cycle, in map iteration order. -/
def cycleMembers (nodes : NodeMap) : List String :=
  (nodeIds nodes).filter (fun n => reachesWithin nodes nodes.length n n)

/-- Whether `n` lies on a dependency cycle or transitively depends on a key that
does. -/
def blockedByCycle (nodes : NodeMap) (n : String) : Bool :=
  (nodeIds nodes).any (fun m =>
    reachesWithin nodes nodes.length m m &&
      (m == n || reachesWithin nodes nodes.length n m))

/-- Dependency reachability without the in-map restriction on the target,
following any declared dependency edge one or more times.  This is the closure
computed by the builder utilities, whose reverse map is keyed by raw
dependency identifiers. -/
inductive DependsOn (nodes : NodeMap) : String → String → Prop
  | step {m d : String} : (depsOf nodes m).contains d = true → DependsOn nodes m d
  | tail {m k n : String} : (depsOf nodes m).contains k = true →
      DependsOn nodes k n → DependsOn nodes m n

/-! ## Executor model (src/dag/executor.ts)

The executor runs levels sequentially; inside a level every task observes the
same value of the `shouldStop` flag, because the flag is only mutated after
`executeWithConcurrency` for the level has resolved (single-threaded
cooperative scheduling).  Within-level completion order is immaterial to the
recorded key set; the model records results in dispatch order, the order used
by `executeWithConcurrency`'s result accumulation when tasks finish in
dispatch order. -/

/-- Model of `NodeResult` from src/types.ts (`output` omitted; the error is modelled by
its message). -/
structure NodeResultM where
  node : DAGNode
  success : Bool
  errorMsg : Option String
  duration : Nat
  logs : List String
deriving Repr, DecidableEq

/-- The synthetic result produced by the per-task `shouldStop` branch. -/
def skippedResult (n : DAGNode) : NodeResultM :=
  ⟨n, false, some "Skipped due to earlier failure", 0,
    ["Skipped due to earlier failure"]⟩

/-- Model of `results.set(k, v)` on a `Map` modelled as an association list in
insertion order: replace an existing binding in place, otherwise append. -/
def setResult (m : List (String × NodeResultM)) (k : String) (v : NodeResultM) :
    List (String × NodeResultM) :=
  if m.any (fun p => p.1 == k) then
    m.map (fun p => if p.1 == k then (k, v) else p)
  else m ++ [(k, v)]

/-- The executor's accumulated state: the result map, the failed-identifier
list, and the identifiers for which `onNodeStart` and the work function were
invoked (in invocation order). -/
structure ExecAcc where
  results : List (String × NodeResultM)
  failed : List String
  started : List String
deriving Repr, DecidableEq

/-- The level loop of `executeDAG`: `for (const level of dag.levels)` with the
`shouldStop` check, the per-task skip branch, per-level result recording and
fail-fast flag update. -/
def execLevels (proc : DAGNode → NodeResultM) (failFast : Bool) :
    List (List DAGNode) → Bool → ExecAcc → ExecAcc
  | [], _, acc => acc
  | lvl :: rest, stop, acc =>
    if stop then acc
    else
      let lres := lvl.map (fun n => if stop then skippedResult n else proc n)
      let started := lvl.filterMap (fun n => if stop then none else some n.id)
      let results := lres.foldl (fun r res => setResult r res.node.id res) acc.results
      let newFailed := (lres.filter (fun res => res.success == false)).map
        (fun res => res.node.id)
      let stopN := stop || (failFast && !newFailed.isEmpty)
      execLevels proc failFast rest stopN
        ⟨results, acc.failed ++ newFailed, acc.started ++ started⟩

/-- Record a batch of per-node results into the result map, keyed by
`result.node.id`, in batch order. -/
def recordResults (proc : DAGNode → NodeResultM) (L : List DAGNode)
    (init : List (String × NodeResultM)) : List (String × NodeResultM) :=
  L.foldl (fun r n => setResult r (proc n).node.id (proc n)) init

/-- Model of `DAGResult` from src/types.ts (`totalDuration` omitted: wall-clock time is
outside the model). -/
structure DAGResultM where
  success : Bool
  results : List (String × NodeResultM)
  failedNodes : List String
deriving Repr, DecidableEq

/-- Model of `executeDAG` (levels already computed by the assigner): run the level
loop, then `success: failedNodes.length === 0`. -/
def executeDAG (levels : List (List DAGNode)) (proc : DAGNode → NodeResultM)
    (failFast : Bool) : DAGResultM :=
  let acc := execLevels proc failFast levels false ⟨[], [], []⟩
  ⟨acc.failed.isEmpty, acc.results, acc.failed⟩

/-- The identifiers for which `onNodeStart` and the work function ran, in
invocation order (instrumentation of the same run). -/
def executeDAGStarted (levels : List (List DAGNode)) (proc : DAGNode → NodeResultM)
    (failFast : Bool) : List String :=
  (execLevels proc failFast levels false ⟨[], [], []⟩).started

/-- The index of the first level containing a failing item (the level whose
completion sets `shouldStop` under fail-fast); `levels.length` when no level
fails or fail-fast is off. -/
def stopIndex (proc : DAGNode → NodeResultM) (failFast : Bool)
    (levels : List (List DAGNode)) : Nat :=
  if failFast then
    levels.findIdx (fun lvl => lvl.any (fun n => (proc n).success == false))
  else levels.length

/-- The levels the executor actually dispatches. -/
def executedLevels (proc : DAGNode → NodeResultM) (failFast : Bool)
    (levels : List (List DAGNode)) : List (List DAGNode) :=
  levels.take (stopIndex proc failFast levels + 1)

/-! ## Bounded-concurrency batch runner (`executeWithConcurrency`)

Abstract in-flight accounting of the promise-set race loop.  One loop
iteration dispatches a task (in-flight count rises by one) and, if the
in-flight count has reached the limit, awaits `Promise.race`, at which point
some nonempty set of in-flight tasks resolves.  Because the scheduler is
single-threaded, resolutions only occur at the `await`; the number resolving
is the oracle `k`, clamped to a valid value (at least one task resolves, at
most all of them). -/

/-- One iteration of the dispatch loop: `(inFlight, maxSeen) → same` given the
oracle entry `k` for this iteration's potential `await Promise.race`. -/
def concStep (limit : Nat) (st : Nat × Nat) (k : Nat) : Nat × Nat :=
  let f := st.1 + 1
  let m := max st.2 f
  if limit ≤ f then (f - min (max k 1) f, m) else (f, m)

/-- Run the dispatch loop over `count` items with a resolution oracle. -/
def concRun (limit : Nat) : Nat → List Nat → Nat × Nat → Nat × Nat
  | 0, _, st => st
  | c + 1, oracle, st => concRun limit c oracle.tail (concStep limit st (oracle.headD 1))

/-- The largest number of simultaneously in-flight work invocations over an
`executeWithConcurrency` run on `count` items under resolution oracle
`oracle`. -/
def maxInFlight (limit count : Nat) (oracle : List Nat) : Nat :=
  (concRun limit count oracle (0, 0)).2

/-! ## Builder utilities (src/dag/builder.ts) -/

/-- Model of `Set.add` on a set modelled as a duplicate-free list in insertion
order. -/
def addSet (l : List String) (x : String) : List String :=
  if l.contains x then l else l ++ [x]

/-- The recursive `visit` of `getAncestors`: mark `n` visited, then for each
in-map dependency, add it to the ancestor set and recurse.  Fuel bounds the
recursion depth; `nodes.length + 2` exceeds any reachable depth because every
productive call marks a fresh identifier visited. -/
def ancVisit (nodes : NodeMap) : Nat → String → List String × List String → List String × List String
  | 0, _, st => st
  | f + 1, n, st =>
    if st.1.contains n then st
    else
      match getNode nodes n with
      | none => (st.1 ++ [n], st.2)
      | some node =>
        node.dependencies.foldl
          (fun acc dep =>
            if hasNode nodes dep then ancVisit nodes f dep (acc.1, addSet acc.2 dep)
            else acc)
          (st.1 ++ [n], st.2)

/-- Model of `getAncestors(nodes, id)`. -/
def getAncestors (nodes : NodeMap) (id : String) : List String :=
  (ancVisit nodes (nodes.length + 2) id ([], [])).2

/-- Model of `dependents.get(x)` in `getDescendants`: built from every declared
dependency (no in-map restriction on the key). -/
def descDependents (nodes : NodeMap) (x : String) : List String :=
  (nodeIds nodes).filter (fun n => (depsOf nodes n).contains x)

/-- The recursive `visit` of `getDescendants`. -/
def descVisit (nodes : NodeMap) : Nat → String → List String × List String → List String × List String
  | 0, _, st => st
  | f + 1, n, st =>
    if st.1.contains n then st
    else
      (descDependents nodes n).foldl
        (fun acc dep => descVisit nodes f dep (acc.1, addSet acc.2 dep))
        (st.1 ++ [n], st.2)

/-- Model of `getDescendants(nodes, id)`. -/
def getDescendants (nodes : NodeMap) (id : String) : List String :=
  (descVisit nodes (nodes.length + 2) id ([], [])).2

/-! ## `createProcessor` (src/dag/executor.ts) -/

/-- A thrown JavaScript value: an `Error` object (with its message) or any
other value together with its `String(...)` coercion. -/
inductive ThrownValue where
  | errObj (msg : String)
  | nonError (coerced : String)
deriving Repr, DecidableEq

/-- Model of `error instanceof Error ? error : new Error(String(error))`, projected to
the resulting message. -/
def thrownMessage : ThrownValue → String
  | .errObj msg => msg
  | .nonError coerced => coerced

/-- The behaviour of the wrapped `fn` on a given node: return normally or
throw a value. -/
inductive WorkOutcome where
  | ret
  | threw (v : ThrownValue)
deriving Repr, DecidableEq

/-- Model of `createProcessor(fn)` applied to a node, given `fn`'s outcome on that node
and the elapsed duration: logs a start line, then either a completion line
(success) or a failure line carrying the thrown value's message. -/
def createProcessor (outcome : WorkOutcome) (elapsed : Nat) (n : DAGNode) : NodeResultM :=
  match outcome with
  | .ret =>
    ⟨n, true, none, elapsed, ["Starting " ++ n.id, "Completed " ++ n.id]⟩
  | .threw v =>
    ⟨n, false, some (thrownMessage v), elapsed,
      ["Starting " ++ n.id, "Failed " ++ n.id ++ ": " ++ thrownMessage v]⟩

/-! ## Out-of-map dependency pruning (for claim C7) -/

/-- A copy of a node with its out-of-map dependencies removed. -/
def pruneNode (nodes : NodeMap) (nd : DAGNode) : DAGNode :=
  ⟨nd.id, nd.dependencies.filter (fun d => hasNode nodes d)⟩

/-- The same map with every out-of-map dependency removed. -/
def pruneDeps (nodes : NodeMap) : NodeMap := nodes.map (pruneNode nodes)

/-- A concrete two-level instance (two independent leaves, one join node)
used to exercise the executor theorems. -/
def sampleLevels : List (List DAGNode) := [[⟨"a", []⟩, ⟨"b", []⟩], [⟨"c", ["a", "b"]⟩]]

/-- A concrete work function failing exactly on the item `"a"`. -/
def sampleProc : DAGNode → NodeResultM := fun n => ⟨n, !(n.id == "a"), none, 0, []⟩

/-- A concrete acyclic diamond map used to exercise the leveling theorems. -/
def diamondMap : NodeMap := [⟨"a", []⟩, ⟨"b", ["a"]⟩, ⟨"c", ["a"]⟩, ⟨"d", ["b", "c"]⟩]

/-- A concrete map with a self-cycle on `a` and a downstream dependent `b`. -/
def cycleMap : NodeMap := [⟨"a", ["a"]⟩, ⟨"b", ["a"]⟩]

/-! # Theorems -/

/-! ## Bounded concurrency (claim C4) -/

theorem concRun_bound (limit : Nat) :
    ∀ (count : Nat) (oracle : List Nat) (st : Nat × Nat),
      st.1 < limit → st.2 ≤ limit → (concRun limit count oracle st).2 ≤ limit := by
  intro count
  induction count with
  | zero => intro oracle st _ h2; exact h2
  | succ c ih =>
    intro oracle st h1 h2
    rw [concRun]
    apply ih
    · simp only [concStep]
      split <;> omega
    · simp only [concStep]
      split <;> simp <;> omega

/-- C4 counterexample: with concurrency limit 0 and a single item,
`executeWithConcurrency` still dispatches the item before awaiting, so one
work invocation is in flight, exceeding the limit. -/
theorem executeWithConcurrency_limit_zero_counterexample :
    maxInFlight 0 1 [] = 1 ∧ ¬ (maxInFlight 0 1 [] ≤ 0) := by decide

/-- C4 (amended): for every positive concurrency limit, every item count and
every resolution schedule, the number of simultaneously in-flight work
invocations inside `executeWithConcurrency` never exceeds the limit. -/
theorem executeWithConcurrency_inflight_bound (limit count : Nat) (oracle : List Nat)
    (hlim : 1 ≤ limit) : maxInFlight limit count oracle ≤ limit :=
  concRun_bound limit count oracle (0, 0) hlim (Nat.zero_le _)

theorem executeWithConcurrency_inflight_bound_witness :
    1 ≤ 2 ∧ maxInFlight 2 5 [1, 2, 1, 1, 1] ≤ 2 :=
  ⟨by decide, executeWithConcurrency_inflight_bound 2 5 [1, 2, 1, 1, 1] (by decide)⟩

/-! ## `createProcessor` (claim C8) -/

/-- C8: the processor returned by `createProcessor` is total (it never
rejects): a normal return yields a successful result whose logs contain a
start and a completion line referencing the node's identifier; a thrown
`Error` yields a failed result carrying the error's message; a thrown
non-`Error` value yields a failed result carrying the value's string
coercion; both failure cases append a failure log line. -/
theorem createProcessor_spec (n : DAGNode) (elapsed : Nat) (m s : String) :
    (createProcessor .ret elapsed n).success = true ∧
    "Starting " ++ n.id ∈ (createProcessor .ret elapsed n).logs ∧
    "Completed " ++ n.id ∈ (createProcessor .ret elapsed n).logs ∧
    (createProcessor (.threw (.errObj m)) elapsed n).success = false ∧
    (createProcessor (.threw (.errObj m)) elapsed n).errorMsg = some m ∧
    "Failed " ++ n.id ++ ": " ++ m ∈ (createProcessor (.threw (.errObj m)) elapsed n).logs ∧
    (createProcessor (.threw (.nonError s)) elapsed n).success = false ∧
    (createProcessor (.threw (.nonError s)) elapsed n).errorMsg = some s ∧
    "Failed " ++ n.id ++ ": " ++ s ∈ (createProcessor (.threw (.nonError s)) elapsed n).logs := by
  simp [createProcessor, thrownMessage]

/-! ## Executor characterization (claims C5, C6, C10) -/

theorem mem_setResult {m : List (String × NodeResultM)} {k : String}
    {v : NodeResultM} {p : String × NodeResultM} (hp : p ∈ setResult m k v) :
    p = (k, v) ∨ (p ∈ m ∧ p.1 ≠ k) := by
  unfold setResult at hp
  by_cases h : m.any (fun q => q.1 == k)
  · rw [if_pos h] at hp
    rcases List.mem_map.mp hp with ⟨q, hq, hqe⟩
    by_cases hk : q.1 = k
    · left; rw [← hqe]; simp [hk]
    · right
      rw [← hqe]
      simp only [beq_iff_eq, if_neg hk]
      exact ⟨hq, hk⟩
  · rw [if_neg h] at hp
    rcases List.mem_append.mp hp with hp | hp
    · right
      refine ⟨hp, ?_⟩
      intro hk
      apply h
      rw [List.any_eq_true]
      exact ⟨p, hp, by simp [hk]⟩
    · left; simpa using hp

theorem setResult_self_mem (m : List (String × NodeResultM)) (k : String)
    (v : NodeResultM) : (k, v) ∈ setResult m k v := by
  unfold setResult
  by_cases h : m.any (fun q => q.1 == k)
  · rw [if_pos h]
    rcases List.any_eq_true.mp h with ⟨q, hq, hqk⟩
    refine List.mem_map.mpr ⟨q, hq, ?_⟩
    rw [if_pos hqk]
  · rw [if_neg h]
    simp

theorem setResult_key_persist {m : List (String × NodeResultM)} {c : String}
    (hc : ∃ w, (c, w) ∈ m) (k : String) (v : NodeResultM) :
    ∃ w, (c, w) ∈ setResult m k v := by
  by_cases hk : c = k
  · exact ⟨v, hk ▸ setResult_self_mem m k v⟩
  · rcases hc with ⟨w, hw⟩
    unfold setResult
    by_cases h : m.any (fun q => q.1 == k)
    · rw [if_pos h]
      refine ⟨w, List.mem_map.mpr ⟨(c, w), hw, ?_⟩⟩
      simp [hk]
    · rw [if_neg h]
      exact ⟨w, List.mem_append_left _ hw⟩

theorem mem_recordResults {proc : DAGNode → NodeResultM} :
    ∀ (L : List DAGNode) (init : List (String × NodeResultM))
      (p : String × NodeResultM), p ∈ recordResults proc L init →
      p ∈ init ∨ ∃ n ∈ L, p = ((proc n).node.id, proc n) := by
  intro L
  induction L with
  | nil => intro init p hp; exact Or.inl hp
  | cons x rest ih =>
    intro init p hp
    rw [recordResults, List.foldl_cons] at hp
    rcases ih _ p hp with hp | ⟨n, hn, hpe⟩
    · rcases mem_setResult hp with hpe | ⟨hpm, _⟩
      · exact Or.inr ⟨x, by simp, hpe⟩
      · exact Or.inl hpm
    · exact Or.inr ⟨n, by simp [hn], hpe⟩

theorem recordResults_key_persist {proc : DAGNode → NodeResultM} :
    ∀ (L : List DAGNode) (init : List (String × NodeResultM)) (c : String),
      (∃ w, (c, w) ∈ init) → ∃ w, (c, w) ∈ recordResults proc L init := by
  intro L
  induction L with
  | nil => intro init c hc; exact hc
  | cons x rest ih =>
    intro init c hc
    rw [recordResults, List.foldl_cons]
    exact ih _ c (setResult_key_persist hc _ _)

theorem recordResults_key_mem {proc : DAGNode → NodeResultM} :
    ∀ (L : List DAGNode) (init : List (String × NodeResultM)) (n : DAGNode),
      n ∈ L → ∃ w, ((proc n).node.id, w) ∈ recordResults proc L init := by
  intro L
  induction L with
  | nil => intro init n hn; cases hn
  | cons x rest ih =>
    intro init n hn
    rcases List.mem_cons.mp hn with rfl | hn
    · rw [recordResults, List.foldl_cons]
      exact recordResults_key_persist rest _ _ ⟨proc n, setResult_self_mem _ _ _⟩
    · rw [recordResults, List.foldl_cons]
      exact ih _ n hn

theorem execLevels_stop (proc : DAGNode → NodeResultM) (ff : Bool)
    (levels : List (List DAGNode)) (acc : ExecAcc) :
    execLevels proc ff levels true acc = acc := by
  cases levels <;> simp [execLevels]

theorem isEmpty_filter {α : Type} (p : α → Bool) :
    ∀ l : List α, (l.filter p).isEmpty = !l.any p := by
  intro l
  induction l with
  | nil => rfl
  | cons x rest ih =>
    by_cases hx : p x = true
    · simp [List.filter_cons, hx]
    · rw [Bool.not_eq_true] at hx
      simp [List.filter_cons, hx, ih]

theorem filterMap_some_map {α β : Type} (f : α → β) :
    ∀ l : List α, l.filterMap (fun x => some (f x)) = l.map f := by
  intro l
  induction l with
  | nil => rfl
  | cons x rest ih => simp [List.filterMap_cons, ih]

theorem isEmpty_map {α β : Type} (f : α → β) (l : List α) :
    (l.map f).isEmpty = l.isEmpty := by
  cases l <;> rfl

theorem executedLevels_nil (proc : DAGNode → NodeResultM) (ff : Bool) :
    executedLevels proc ff [] = [] := by
  unfold executedLevels
  exact List.take_nil

theorem executedLevels_cons_stop (proc : DAGNode → NodeResultM)
    (lvl : List DAGNode) (rest : List (List DAGNode))
    (hfail : lvl.any (fun n => (proc n).success == false) = true) :
    executedLevels proc true (lvl :: rest) = [lvl] := by
  unfold executedLevels stopIndex
  rw [if_pos rfl, List.findIdx_cons, hfail]
  rfl

theorem executedLevels_cons_go (proc : DAGNode → NodeResultM) (ff : Bool)
    (lvl : List DAGNode) (rest : List (List DAGNode))
    (h : ¬ (ff = true ∧ lvl.any (fun n => (proc n).success == false) = true)) :
    executedLevels proc ff (lvl :: rest) = lvl :: executedLevels proc ff rest := by
  cases ff with
  | false =>
    unfold executedLevels stopIndex
    rw [if_neg (by simp), if_neg (by simp)]
    rw [List.take_of_length_le (by simp), List.take_of_length_le (by simp)]
  | true =>
    have hfail : lvl.any (fun n => (proc n).success == false) = false := by
      cases hany : lvl.any (fun n => (proc n).success == false) with
      | false => rfl
      | true => exact absurd ⟨rfl, hany⟩ h
    unfold executedLevels stopIndex
    rw [if_pos rfl, if_pos rfl, List.findIdx_cons, hfail]
    exact List.take_succ_cons

theorem execLevels_cons_eq (proc : DAGNode → NodeResultM) (ff : Bool)
    (lvl : List DAGNode) (rest : List (List DAGNode)) (acc : ExecAcc) :
    execLevels proc ff (lvl :: rest) false acc =
      execLevels proc ff rest (ff && lvl.any (fun n => (proc n).success == false))
        ⟨recordResults proc lvl acc.results,
          acc.failed ++ (lvl.filter (fun n => (proc n).success == false)).map
            (fun n => (proc n).node.id),
          acc.started ++ lvl.map (fun n => n.id)⟩ := by
  rw [execLevels]
  simp only [Bool.false_eq_true, if_false, Bool.false_or]
  rw [filterMap_some_map (fun n => n.id) lvl]
  simp only [List.filter_map, List.map_map, List.foldl_map]
  rw [isEmpty_map, isEmpty_filter, Bool.not_not]
  rfl

theorem execLevels_run (proc : DAGNode → NodeResultM) (ff : Bool) :
    ∀ (levels : List (List DAGNode)) (acc : ExecAcc),
      execLevels proc ff levels false acc =
        ⟨recordResults proc ((executedLevels proc ff levels).flatten) acc.results,
          acc.failed ++ (((executedLevels proc ff levels).flatten).filter
            (fun n => (proc n).success == false)).map (fun n => (proc n).node.id),
          acc.started ++ ((executedLevels proc ff levels).flatten).map (fun n => n.id)⟩ := by
  intro levels
  induction levels with
  | nil =>
    intro acc
    rw [executedLevels_nil]
    simp [execLevels, recordResults]
  | cons lvl rest ih =>
    intro acc
    rw [execLevels_cons_eq]
    by_cases hstop : ff = true ∧ lvl.any (fun n => (proc n).success == false) = true
    · obtain ⟨hff, hfail⟩ := hstop
      subst hff
      rw [hfail]
      rw [show (true && true) = true from rfl]
      rw [execLevels_stop]
      rw [executedLevels_cons_stop proc lvl rest hfail]
      simp [recordResults]
    · have hflag : (ff && lvl.any (fun n => (proc n).success == false)) = false := by
        cases hff : ff with
        | false => rfl
        | true =>
          have hfail : lvl.any (fun n => (proc n).success == false) = false := by
            cases hany : lvl.any (fun n => (proc n).success == false) with
            | false => rfl
            | true => exact absurd ⟨rfl, hany⟩ (hff ▸ hstop)
          rw [hfail]
          rfl
      rw [hflag, ih]
      rw [executedLevels_cons_go proc ff lvl rest hstop]
      simp only [List.flatten_cons, List.filter_append, List.map_append, List.append_assoc]
      rw [show recordResults proc (lvl ++ (executedLevels proc ff rest).flatten) acc.results
        = recordResults proc ((executedLevels proc ff rest).flatten)
            (recordResults proc lvl acc.results) from List.foldl_append ..]

/-- C10: in `executeDAG` the stop flag is written only between levels (after a
level's tasks have all resolved), so every task of a dispatched level observes
a clear flag.  Consequently the synthetic-skip branch is unreachable: every
recorded Node Result is the work function's output for a dispatched item (no
`"Skipped due to earlier failure"` result is ever synthesized), and every item
of every dispatched level has the on-start callback and the work function
invoked — including items sharing a level with a fail-fast failure. -/
theorem executeDAG_skip_unreachable (levels : List (List DAGNode))
    (proc : DAGNode → NodeResultM) (ff : Bool) :
    (∀ p ∈ (executeDAG levels proc ff).results,
      ∃ n, n ∈ (executedLevels proc ff levels).flatten ∧
        p = ((proc n).node.id, proc n)) ∧
    executeDAGStarted levels proc ff =
      ((executedLevels proc ff levels).flatten).map (fun n => n.id) := by
  have hrun := execLevels_run proc ff levels ⟨[], [], []⟩
  constructor
  · intro p hp
    simp only [executeDAG, hrun] at hp
    rcases mem_recordResults _ _ p hp with h | ⟨n, hn, hpe⟩
    · cases h
    · exact ⟨n, hn, hpe⟩
  · simp only [executeDAGStarted, hrun]
    simp

theorem flatten_take_subset_flatten {α : Type} (s : Nat) (L : List (List α)) :
    ∀ x ∈ (L.take s).flatten, x ∈ L.flatten := by
  intro x hx
  rcases List.mem_flatten.mp hx with ⟨l, hl, hxl⟩
  exact List.mem_flatten.mpr ⟨l, List.take_subset s L hl, hxl⟩

theorem mem_drop_flatten_of_get {α : Type} (L : List (List α)) (s j : Nat)
    (hj : j < L.length) (hsj : s ≤ j) (x : α) (hx : x ∈ L.get ⟨j, hj⟩) :
    x ∈ (L.drop s).flatten := by
  refine List.mem_flatten.mpr ⟨L.get ⟨j, hj⟩, ?_, hx⟩
  have hd : (L.drop s).get ⟨j - s, by rw [List.length_drop]; omega⟩ = L.get ⟨j, hj⟩ := by
    simp only [List.get_eq_getElem, List.getElem_drop]
    congr 1
    omega
  rw [← hd]
  exact List.get_mem _ _ _

theorem not_mem_take_flatten_of_mem_drop {α β : Type} (f : α → β)
    (L : List (List α)) (s : Nat) (hnd : ((L.flatten).map f).Nodup) (x : α)
    (hx : x ∈ (L.drop s).flatten) : f x ∉ ((L.take s).flatten).map f := by
  have hsplit : L.flatten = (L.take s).flatten ++ (L.drop s).flatten := by
    conv_lhs => rw [← List.take_append_drop s L]
    rw [List.flatten_append]
  rw [hsplit, List.map_append] at hnd
  have hdisj := (List.nodup_append.mp hnd).2.2
  intro hmem
  exact hdisj hmem (List.mem_map_of_mem f hx)

/-- C5: with fail-fast enabled, once a level completes containing at least one
unsuccessful Node Result (level `k`, the stop index), no item of any
subsequent level is dispatched: its on-start callback and work function are
never invoked, and no entry for it — synthetic or otherwise — appears in the
results map. -/
theorem executeDAG_failFast_stops (proc : DAGNode → NodeResultM)
    (levels : List (List DAGNode))
    (hids : ((levels.flatten).map (fun n => n.id)).Nodup)
    (hpid : ∀ n, (proc n).node.id = n.id)
    (k : Nat) (hk : stopIndex proc true levels = k) (hklt : k < levels.length)
    (j : Nat) (hj : j < levels.length) (hkj : k < j)
    (n : DAGNode) (hn : n ∈ levels.get ⟨j, hj⟩) :
    n.id ∉ executeDAGStarted levels proc true ∧
    ∀ v, (n.id, v) ∉ (executeDAG levels proc true).results := by
  have hex : executedLevels proc true levels = levels.take (k + 1) := by
    unfold executedLevels
    rw [hk]
  have hdropmem : n ∈ (levels.drop (k + 1)).flatten :=
    mem_drop_flatten_of_get levels (k + 1) j hj (by omega) n hn
  have hnot : n.id ∉ ((levels.take (k + 1)).flatten).map (fun m => m.id) :=
    not_mem_take_flatten_of_mem_drop (fun m => m.id) levels (k + 1) hids n hdropmem
  have hrun := execLevels_run proc true levels ⟨[], [], []⟩
  constructor
  · simp only [executeDAGStarted, hrun, hex]
    exact hnot
  · intro v hv
    simp only [executeDAG, hrun, hex] at hv
    rcases mem_recordResults _ _ _ hv with h | ⟨m, hm, hme⟩
    · cases h
    · have : n.id = m.id := by
        have := congrArg Prod.fst hme
        simpa [hpid m] using this
      exact hnot (this ▸ List.mem_map_of_mem (fun m => m.id) hm)

theorem executeDAG_failFast_stops_witness :
    "c" ∉ executeDAGStarted [[⟨"a", []⟩], [⟨"b", ["a"]⟩], [⟨"c", ["b"]⟩]]
        (fun n => ⟨n, !(n.id == "b"), none, 0, []⟩) true ∧
    ∀ v, ("c", v) ∉ (executeDAG [[⟨"a", []⟩], [⟨"b", ["a"]⟩], [⟨"c", ["b"]⟩]]
        (fun n => ⟨n, !(n.id == "b"), none, 0, []⟩) true).results :=
  executeDAG_failFast_stops (fun n => ⟨n, !(n.id == "b"), none, 0, []⟩)
    [[⟨"a", []⟩], [⟨"b", ["a"]⟩], [⟨"c", ["b"]⟩]] (by decide) (fun _ => rfl)
    1 (by decide) (by decide) 2 (by decide) (by decide) ⟨"c", ["b"]⟩ (by decide)

/-- C6: the `DAGResult` of `executeDAG` satisfies: `success` is true iff the
failed list is empty; the failed list is exactly the identifiers of the
unsuccessful Node Results in recorded (level-major, per-level arrival) order;
the results map has an entry keyed by item identifier for every dispatched
item, and no entry for items of levels never reached. -/
theorem executeDAG_result_aggregate (proc : DAGNode → NodeResultM) (ff : Bool)
    (levels : List (List DAGNode))
    (hids : ((levels.flatten).map (fun n => n.id)).Nodup)
    (hpid : ∀ n, (proc n).node.id = n.id) :
    ((executeDAG levels proc ff).success = true ↔
      (executeDAG levels proc ff).failedNodes = []) ∧
    (executeDAG levels proc ff).failedNodes =
      (((executedLevels proc ff levels).flatten).filter
        (fun n => (proc n).success == false)).map (fun n => n.id) ∧
    (∀ n ∈ (executedLevels proc ff levels).flatten,
      ∃ v, (n.id, v) ∈ (executeDAG levels proc ff).results) ∧
    (∀ m ∈ levels.flatten, m ∉ (executedLevels proc ff levels).flatten →
      ∀ v, (m.id, v) ∉ (executeDAG levels proc ff).results) := by
  have hrun := execLevels_run proc ff levels ⟨[], [], []⟩
  refine ⟨?_, ?_, ?_, ?_⟩
  · simp only [executeDAG, hrun]
    simp [List.isEmpty_iff]
  · simp only [executeDAG, hrun]
    simp only [List.nil_append]
    exact List.map_congr_left (fun n hn => hpid n)
  · intro n hn
    simp only [executeDAG, hrun]
    have := @recordResults_key_mem proc
      ((executedLevels proc ff levels).flatten) [] n hn
    rwa [hpid n] at this
  · intro m hm hnotex v hv
    simp only [executeDAG, hrun] at hv
    rcases mem_recordResults _ _ _ hv with h | ⟨x, hx, hxe⟩
    · cases h
    · have hxf : x ∈ levels.flatten := by
        unfold executedLevels at hx
        exact flatten_take_subset_flatten _ levels x hx
      have hideq : m.id = x.id := by
        have := congrArg Prod.fst hxe
        simpa [hpid x] using this
      have : m = x := List.inj_on_of_nodup_map hids hm hxf hideq
      exact hnotex (this ▸ hx)

theorem executeDAG_result_aggregate_witness :
    (((executeDAG sampleLevels sampleProc false).success = true ↔
      (executeDAG sampleLevels sampleProc false).failedNodes = []) ∧
    (executeDAG sampleLevels sampleProc false).failedNodes =
      (((executedLevels sampleProc false sampleLevels).flatten).filter
        (fun n => (sampleProc n).success == false)).map (fun n => n.id) ∧
    (∀ n ∈ (executedLevels sampleProc false sampleLevels).flatten,
      ∃ v, (n.id, v) ∈ (executeDAG sampleLevels sampleProc false).results) ∧
    (∀ m ∈ sampleLevels.flatten, m ∉ (executedLevels sampleProc false sampleLevels).flatten →
      ∀ v, (m.id, v) ∉ (executeDAG sampleLevels sampleProc false).results)) :=
  executeDAG_result_aggregate sampleProc false sampleLevels (by decide) (fun _ => rfl)

/-! ## Ancestors and descendants (claim C9) -/

theorem DependsOn.snoc {nodes : NodeMap} {m n d : String}
    (h : DependsOn nodes m n) (hd : (depsOf nodes n).contains d = true) :
    DependsOn nodes m d := by
  induction h with
  | step h1 => exact .tail h1 (.step hd)
  | tail h1 _ ih => exact .tail h1 (ih hd)

theorem ancVisit_sound (nodes : NodeMap) (root : String) :
    ∀ (f : Nat) (n : String) (st : List String × List String),
      (n = root ∨ DependsOn nodes root n) →
      (∀ x ∈ st.2, DependsOn nodes root x) →
      ∀ x ∈ (ancVisit nodes f n st).2, DependsOn nodes root x := by
  intro f
  induction f with
  | zero => intro n st _ hst x hx; exact hst x hx
  | succ f ih =>
    intro n st hn hst x hx
    rw [ancVisit] at hx
    by_cases hv : st.1.contains n
    · rw [if_pos hv] at hx
      exact hst x hx
    · rw [if_neg hv] at hx
      cases hg : getNode nodes n with
      | none =>
        simp only [hg] at hx
        exact hst x hx
      | some node =>
        simp only [hg] at hx
        have hdeps : ∀ d ∈ node.dependencies, (depsOf nodes n).contains d = true := by
          intro d hd
          unfold depsOf
          rw [hg]
          simpa using hd
        have haux : ∀ (ds : List String),
            (∀ d ∈ ds, (depsOf nodes n).contains d = true) →
            ∀ (acc0 : List String × List String),
            (∀ z ∈ acc0.2, DependsOn nodes root z) →
            ∀ y ∈ (ds.foldl (fun acc dep =>
              if hasNode nodes dep then ancVisit nodes f dep (acc.1, addSet acc.2 dep)
              else acc) acc0).2, DependsOn nodes root y := by
          intro ds
          induction ds with
          | nil => intro _ acc0 hacc2 y hy; exact hacc2 y hy
          | cons d rest ihl =>
            intro hds acc0 hacc2 y hy
            rw [List.foldl_cons] at hy
            by_cases hh : hasNode nodes d
            · rw [if_pos hh] at hy
              have hDd : DependsOn nodes root d := by
                rcases hn with rfl | hR
                · exact .step (hds d (by simp))
                · exact hR.snoc (hds d (by simp))
              refine ihl (fun e he => hds e (by simp [he])) _ ?_ y hy
              intro z hz
              refine ih d (acc0.1, addSet acc0.2 d) (Or.inr hDd) ?_ z hz
              intro w hw
              unfold addSet at hw
              by_cases hc : acc0.2.contains d
              · rw [if_pos hc] at hw
                exact hacc2 w hw
              · rw [if_neg hc] at hw
                rcases List.mem_append.mp hw with hw | hw
                · exact hacc2 w hw
                · rw [List.mem_singleton.mp hw]
                  exact hDd
            · rw [if_neg hh] at hy
              exact ihl (fun e he => hds e (by simp [he])) acc0 hacc2 y hy
        exact haux node.dependencies hdeps (st.1 ++ [n], st.2) hst x hx

theorem getAncestors_sound (nodes : NodeMap) (root : String) :
    ∀ x ∈ getAncestors nodes root, DependsOn nodes root x := by
  intro x hx
  exact ancVisit_sound nodes root (nodes.length + 2) root ([], [])
    (Or.inl rfl) (by intro z hz; cases hz) x hx

theorem descVisit_sound (nodes : NodeMap) (root : String) :
    ∀ (f : Nat) (n : String) (st : List String × List String),
      (n = root ∨ DependsOn nodes n root) →
      (∀ x ∈ st.2, DependsOn nodes x root) →
      ∀ x ∈ (descVisit nodes f n st).2, DependsOn nodes x root := by
  intro f
  induction f with
  | zero => intro n st _ hst x hx; exact hst x hx
  | succ f ih =>
    intro n st hn hst x hx
    rw [descVisit] at hx
    by_cases hv : st.1.contains n
    · rw [if_pos hv] at hx
      exact hst x hx
    · rw [if_neg hv] at hx
      have haux : ∀ (ds : List String),
          (∀ d ∈ ds, (depsOf nodes d).contains n = true) →
          ∀ (acc0 : List String × List String),
          (∀ z ∈ acc0.2, DependsOn nodes z root) →
          ∀ y ∈ (ds.foldl (fun acc dep =>
            descVisit nodes f dep (acc.1, addSet acc.2 dep)) acc0).2,
            DependsOn nodes y root := by
        intro ds
        induction ds with
        | nil => intro _ acc0 hacc2 y hy; exact hacc2 y hy
        | cons d rest ihl =>
          intro hds acc0 hacc2 y hy
          rw [List.foldl_cons] at hy
          have hDd : DependsOn nodes d root := by
            rcases hn with rfl | hR
            · exact .step (hds d (by simp))
            · exact .tail (hds d (by simp)) hR
          refine ihl (fun e he => hds e (by simp [he])) _ ?_ y hy
          intro z hz
          refine ih d (acc0.1, addSet acc0.2 d) (Or.inr hDd) ?_ z hz
          intro w hw
          unfold addSet at hw
          by_cases hc : acc0.2.contains d
          · rw [if_pos hc] at hw
            exact hacc2 w hw
          · rw [if_neg hc] at hw
            rcases List.mem_append.mp hw with hw | hw
            · exact hacc2 w hw
            · rw [List.mem_singleton.mp hw]
              exact hDd
      refine haux (descDependents nodes n) ?_ (st.1 ++ [n], st.2) hst x hx
      intro d hd
      exact (List.mem_filter.mp hd).2

theorem getDescendants_sound (nodes : NodeMap) (root : String) :
    ∀ x ∈ getDescendants nodes root, DependsOn nodes x root := by
  intro x hx
  exact descVisit_sound nodes root (nodes.length + 2) root ([], [])
    (Or.inl rfl) (by intro z hz; cases hz) x hx

/-- C9 counterexample: on the cyclic map `a ↔ b`, both `getAncestors` and
`getDescendants` of `"a"` contain `"a"` itself, contradicting the claim that
the queried identifier is always excluded from the returned sets. -/
theorem getAncestors_getDescendants_self_counterexample :
    "a" ∈ getAncestors [⟨"a", ["b"]⟩, ⟨"b", ["a"]⟩] "a" ∧
    "a" ∈ getDescendants [⟨"a", ["b"]⟩, ⟨"b", ["a"]⟩] "a" := by decide

/-- C9 (amended): whenever the queried identifier does not lie on a dependency
cycle (in particular, for every identifier of an acyclic map), the sets
returned by `getAncestors` and `getDescendants` exclude the queried identifier
itself. -/
theorem getAncestors_getDescendants_exclude_self (nodes : NodeMap) (q : String)
    (h : ¬ DependsOn nodes q q) :
    q ∉ getAncestors nodes q ∧ q ∉ getDescendants nodes q := by
  constructor
  · intro hmem
    exact h (getAncestors_sound nodes q q hmem)
  · intro hmem
    exact h (getDescendants_sound nodes q q hmem)

theorem getAncestors_getDescendants_exclude_self_witness :
    ¬ DependsOn [⟨"a", []⟩, ⟨"b", ["a"]⟩] "a" "a" ∧
    ("a" ∉ getAncestors [⟨"a", []⟩, ⟨"b", ["a"]⟩] "a" ∧
     "a" ∉ getDescendants [⟨"a", []⟩, ⟨"b", ["a"]⟩] "a") := by
  have hnd : ¬ DependsOn [⟨"a", []⟩, ⟨"b", ["a"]⟩] "a" "a" := by
    intro h
    cases h with
    | step h1 => exact absurd h1 (by decide)
    | tail h1 _ =>
      have hde : depsOf [⟨"a", []⟩, ⟨"b", ["a"]⟩] "a" = [] := by decide
      rw [hde] at h1
      exact absurd h1 (by simp)
  exact ⟨hnd, getAncestors_getDescendants_exclude_self [⟨"a", []⟩, ⟨"b", ["a"]⟩] "a" hnd⟩

/-! ## Kahn level assignment (claims C1, C2, C3, C7) -/

theorem hasNode_iff_mem {nodes : NodeMap} {x : String} :
    hasNode nodes x = true ↔ x ∈ nodeIds nodes := by
  unfold hasNode
  exact List.elem_iff

theorem mem_dependentsOf {nodes : NodeMap} {x n : String} :
    n ∈ dependentsOf nodes x ↔
      hasNode nodes x = true ∧ n ∈ nodeIds nodes ∧ (depsOf nodes n).contains x = true := by
  unfold dependentsOf
  by_cases h : hasNode nodes x
  · rw [if_pos h]
    rw [List.mem_filter]
    simp [h]
  · rw [if_neg h]
    simp only [List.not_mem_nil, false_iff]
    intro hc
    exact h hc.1

theorem dependentsOf_nodup {nodes : NodeMap} (hwf : wfNodes nodes) (x : String) :
    (dependentsOf nodes x).Nodup := by
  unfold dependentsOf
  split
  · exact hwf.filter _
  · exact List.nodup_nil

theorem mem_inGraphDeps {nodes : NodeMap} {n d : String} :
    d ∈ inGraphDeps nodes n ↔ (depsOf nodes n).contains d = true ∧ d ∈ nodeIds nodes := by
  unfold inGraphDeps
  rw [List.mem_filter]
  rw [List.elem_iff, hasNode_iff_mem]

theorem hitsIn_nonneg (nodes : NodeMap) (Q : List String) (n : String) :
    0 ≤ hitsIn nodes Q n := by
  unfold hitsIn
  exact Int.ofNat_nonneg _

theorem hitsIn_nil (nodes : NodeMap) (n : String) : hitsIn nodes [] n = 0 := rfl

theorem hitsIn_cons (nodes : NodeMap) (x : String) (rest : List String) (n : String) :
    hitsIn nodes (x :: rest) n =
      (if (dependentsOf nodes x).contains n then (1 : Int) else 0) + hitsIn nodes rest n := by
  unfold hitsIn
  rw [List.filter_cons]
  by_cases h : (dependentsOf nodes x).contains n
  · rw [if_pos h, if_pos h, List.length_cons]
    push_cast
    ring
  · rw [if_neg h, if_neg h]
    ring

theorem hitsIn_pos_exists {nodes : NodeMap} {Q : List String} {n : String}
    (h : 1 ≤ hitsIn nodes Q n) :
    ∃ x ∈ Q, (dependentsOf nodes x).contains n = true := by
  unfold hitsIn at h
  have hlen : 0 < (Q.filter (fun x => (dependentsOf nodes x).contains n)).length := by omega
  rcases List.exists_mem_of_length_pos hlen with ⟨x, hx⟩
  rcases List.mem_filter.mp hx with ⟨hxQ, hxp⟩
  exact ⟨x, hxQ, hxp⟩

theorem countDepsIn_nonneg (nodes : NodeMap) (F : List String) (n : String) :
    0 ≤ countDepsIn nodes F n := Int.ofNat_nonneg _

theorem countDepsIn_append (nodes : NodeMap) (A B : List String) (n : String) :
    countDepsIn nodes (A ++ B) n = countDepsIn nodes A n + countDepsIn nodes B n := by
  unfold countDepsIn
  rw [List.filter_append, List.length_append]
  push_cast
  ring

theorem countDepsIn_le_initDeg (nodes : NodeMap) (F : List String) (hFnd : F.Nodup)
    (hFsub : ∀ x ∈ F, x ∈ nodeIds nodes) (n : String) :
    countDepsIn nodes F n ≤ initDeg nodes n := by
  unfold countDepsIn initDeg
  have hsub : (F.filter (fun x => (depsOf nodes n).contains x)) ⊆ inGraphDeps nodes n := by
    intro x hx
    rcases List.mem_filter.mp hx with ⟨hxF, hxd⟩
    exact mem_inGraphDeps.mpr ⟨hxd, hFsub x hxF⟩
  have := (List.subperm_of_subset (hFnd.filter _) hsub).length_le
  omega

theorem countDepsIn_eq_imp_subset (nodes : NodeMap) (F : List String) (hFnd : F.Nodup)
    (hFsub : ∀ x ∈ F, x ∈ nodeIds nodes) (n : String)
    (heq : countDepsIn nodes F n = initDeg nodes n) :
    ∀ d ∈ inGraphDeps nodes n, d ∈ F := by
  unfold countDepsIn initDeg at heq
  have hsub : (F.filter (fun x => (depsOf nodes n).contains x)) ⊆ inGraphDeps nodes n := by
    intro x hx
    rcases List.mem_filter.mp hx with ⟨hxF, hxd⟩
    exact mem_inGraphDeps.mpr ⟨hxd, hFsub x hxF⟩
  have hsp := List.subperm_of_subset (hFnd.filter _) hsub
  have hperm := hsp.perm_of_length_le (by omega)
  intro d hd
  have : d ∈ F.filter (fun x => (depsOf nodes n).contains x) := hperm.mem_iff.mpr hd
  exact (List.mem_filter.mp this).1

theorem decDeps_deg : ∀ (ds : List String), ds.Nodup →
    ∀ (deg : String → Int) (acc : List String) (n : String),
      (decDeps ds (deg, acc)).1 n = deg n - (if ds.contains n then (1 : Int) else 0) := by
  intro ds
  induction ds with
  | nil =>
    intro _ deg acc n
    simp [decDeps]
  | cons d rest ih =>
    intro hnd deg acc n
    rw [decDeps]
    rw [ih (List.nodup_cons.mp hnd).2]
    have hdr : d ∉ rest := (List.nodup_cons.mp hnd).1
    by_cases hn : n = d
    · subst hn
      have hrc : rest.contains n = false := by
        rw [← Bool.not_eq_true, List.elem_iff]
        exact hdr
      have hcc : (n :: rest).contains n = true := by
        rw [List.elem_iff]
        simp
      rw [hrc, hcc]
      simp
    · have hcc : (d :: rest).contains n = rest.contains n := by
        rw [List.contains_cons]
        have hne : (n == d) = false := by simp [hn]
        rw [hne, Bool.false_or]
      rw [hcc]
      rw [if_neg hn]
  
theorem decDeps_acc : ∀ (ds : List String), ds.Nodup →
    ∀ (deg : String → Int) (acc : List String),
      (decDeps ds (deg, acc)).2 = acc ++ ds.filter (fun d => deg d == 1) := by
  intro ds
  induction ds with
  | nil =>
    intro _ deg acc
    simp [decDeps]
  | cons d rest ih =>
    intro hnd deg acc
    rw [decDeps]
    rw [ih (List.nodup_cons.mp hnd).2]
    have hdr : d ∉ rest := (List.nodup_cons.mp hnd).1
    have hfc : rest.filter (fun e => (fun x => if x = d then deg d - 1 else deg x) e == 1) =
        rest.filter (fun e => deg e == 1) := by
      apply List.filter_congr
      intro e he
      have hed : e ≠ d := fun hc => hdr (hc ▸ he)
      simp [hed]
    rw [hfc, List.filter_cons]
    by_cases h1 : deg d - 1 = 0
    · have hbe : (deg d == 1) = true := by
        rw [beq_iff_eq]
        omega
      rw [if_pos h1, hbe]
      simp
    · have hbe : ¬ ((deg d == 1) = true) := by
        rw [beq_iff_eq]
        omega
      rw [if_neg h1]
      rw [if_neg hbe]

theorem decDeps_pair (ds : List String) (hnd : ds.Nodup) (deg : String → Int)
    (acc : List String) :
    decDeps ds (deg, acc) =
      (fun n => deg n - (if ds.contains n then (1 : Int) else 0),
        acc ++ ds.filter (fun d => deg d == 1)) := by
  have h1 := decDeps_deg ds hnd deg acc
  have h2 := decDeps_acc ds hnd deg acc
  have : decDeps ds (deg, acc) = ((decDeps ds (deg, acc)).1, (decDeps ds (deg, acc)).2) := rfl
  rw [this]
  rw [h2]
  refine congrArg (fun f => (f, acc ++ ds.filter (fun d => deg d == 1))) ?_
  funext n
  exact h1 n

theorem processQueue_deg (nodes : NodeMap) (hwf : wfNodes nodes) :
    ∀ (Q : List String) (deg : String → Int) (acc : List String) (n : String),
      (processQueue nodes Q (deg, acc)).1 n = deg n - hitsIn nodes Q n := by
  intro Q
  induction Q with
  | nil =>
    intro deg acc n
    rw [processQueue, hitsIn_nil]
    ring
  | cons x rest ih =>
    intro deg acc n
    rw [processQueue]
    rw [decDeps_pair (dependentsOf nodes x) (dependentsOf_nodup hwf x) deg acc]
    rw [ih]
    rw [hitsIn_cons]
    ring

theorem processQueue_acc (nodes : NodeMap) (hwf : wfNodes nodes) :
    ∀ (Q : List String) (deg : String → Int) (acc : List String),
      ∃ L : List String, (processQueue nodes Q (deg, acc)).2 = acc ++ L ∧ L.Nodup ∧
        ∀ n, n ∈ L ↔ 1 ≤ deg n ∧ deg n ≤ hitsIn nodes Q n := by
  intro Q
  induction Q with
  | nil =>
    intro deg acc
    refine ⟨[], by rw [processQueue]; rw [List.append_nil], List.nodup_nil, ?_⟩
    intro n
    simp only [List.not_mem_nil, false_iff]
    rw [hitsIn_nil]
    omega
  | cons x rest ih =>
    intro deg acc
    rw [processQueue]
    rw [decDeps_pair (dependentsOf nodes x) (dependentsOf_nodup hwf x) deg acc]
    rcases ih (fun n => deg n - (if (dependentsOf nodes x).contains n then (1 : Int) else 0))
      (acc ++ (dependentsOf nodes x).filter (fun d => deg d == 1)) with ⟨L1, hL1e, hL1nd, hL1m⟩
    refine ⟨(dependentsOf nodes x).filter (fun d => deg d == 1) ++ L1, ?_, ?_, ?_⟩
    · rw [hL1e, List.append_assoc]
    · rw [List.nodup_append]
      refine ⟨(dependentsOf_nodup hwf x).filter _, hL1nd, ?_⟩
      intro a ha haL1
      rcases List.mem_filter.mp ha with ⟨haf, hab⟩
      have ha1 : deg a = 1 := by
        rw [beq_iff_eq] at hab
        exact hab
      have := (hL1m a).mp haL1
      have hac : (dependentsOf nodes x).contains a = true := List.elem_iff.mpr haf
      rw [hac] at this
      simp at this
      omega
    · intro n
      rw [List.mem_append, hL1m, List.mem_filter, hitsIn_cons]
      have hnn := hitsIn_nonneg nodes rest n
      by_cases hc : (dependentsOf nodes x).contains n = true
      · rw [hc]
        rw [if_pos rfl]
        constructor
        · rintro (⟨_, hb⟩ | ⟨h1, h2⟩)
          · rw [beq_iff_eq] at hb
            omega
          · omega
        · intro ⟨h1, h2⟩
          by_cases hd1 : deg n = 1
          · exact Or.inl ⟨List.elem_iff.mp hc, beq_iff_eq.mpr hd1⟩
          · exact Or.inr (by omega)
      · have hcf : (dependentsOf nodes x).contains n = false := by
          rw [← Bool.not_eq_true]
          exact hc
        rw [hcf]
        rw [if_neg (by simp)]
        constructor
        · rintro (⟨hmem, _⟩ | ⟨h1, h2⟩)
          · exact absurd (List.elem_iff.mpr hmem) hc
          · omega
        · intro ⟨h1, h2⟩
          exact Or.inr ⟨by omega, by omega⟩

theorem hitsIn_eq_countDeps (nodes : NodeMap) (queue : List String)
    (hq : ∀ x ∈ queue, x ∈ nodeIds nodes) (n : String) (hn : n ∈ nodeIds nodes) :
    hitsIn nodes queue n = countDepsIn nodes queue n := by
  unfold hitsIn countDepsIn
  have hfe : queue.filter (fun x => (dependentsOf nodes x).contains n) =
      queue.filter (fun x => (depsOf nodes n).contains x) := by
    apply List.filter_congr
    intro x hx
    have hxid := hq x hx
    cases hb : (depsOf nodes n).contains x with
    | true =>
      exact List.elem_iff.mpr (mem_dependentsOf.mpr ⟨hasNode_iff_mem.mpr hxid, hn, hb⟩)
    | false =>
      rw [Bool.eq_false_iff]
      intro hc
      have := (mem_dependentsOf.mp (List.elem_iff.mp hc)).2.2
      rw [this] at hb
      cases hb
  rw [hfe]

theorem KahnInv.stepInv (nodes : NodeMap) (hwf : wfNodes nodes)
    (levels : List (List String)) (queue : List String) (deg : String → Int)
    (inv : KahnInv nodes levels queue deg) :
    KahnInv nodes (levels ++ [queue]) (processQueue nodes queue (deg, [])).2
      (processQueue nodes queue (deg, [])).1 := by
  obtain ⟨L, hLe, hLnd, hLm⟩ := processQueue_acc nodes hwf queue deg []
  rw [List.nil_append] at hLe
  have hdeg : ∀ n, (processQueue nodes queue (deg, [])).1 n = deg n - hitsIn nodes queue n :=
    processQueue_deg nodes hwf queue deg []
  have hfl : (levels ++ [queue]).flatten = levels.flatten ++ queue := by
    rw [List.flatten_append, List.flatten_cons, List.flatten_nil, List.append_nil]
  have hFnd : levels.flatten.Nodup := (List.nodup_append.mp inv.nodupAll).1
  have hFsub : ∀ x ∈ levels.flatten, x ∈ nodeIds nodes :=
    fun x hx => inv.subIds x (List.mem_append_left _ hx)
  have hQsub : ∀ x ∈ queue, x ∈ nodeIds nodes :=
    fun x hx => inv.subIds x (List.mem_append_right _ hx)
  have hdegNonneg : ∀ n ∈ nodeIds nodes, 0 ≤ deg n := by
    intro n hn
    rw [inv.degEq n hn]
    have := countDepsIn_le_initDeg nodes levels.flatten hFnd hFsub n
    omega
  have hLsub : ∀ n ∈ L, n ∈ nodeIds nodes := by
    intro n hn
    rcases (hLm n).mp hn with ⟨h1, h2⟩
    rcases @hitsIn_pos_exists nodes queue n (by omega) with ⟨x, hxQ, hxc⟩
    exact (mem_dependentsOf.mp (List.elem_iff.mp hxc)).2.1
  have hLdisj : ∀ a ∈ levels.flatten ++ queue, a ∉ L := by
    intro a ha haL
    rcases (hLm a).mp haL with ⟨h1, _⟩
    rcases List.mem_append.mp ha with haf | haq
    · have := inv.procNonpos a haf
      omega
    · have := inv.queueZero a haq
      omega
  have hdegEqN : ∀ n ∈ nodeIds nodes,
      (processQueue nodes queue (deg, [])).1 n =
        initDeg nodes n - countDepsIn nodes (levels.flatten ++ queue) n := by
    intro n hn
    rw [hdeg n, inv.degEq n hn, hitsIn_eq_countDeps nodes queue hQsub n hn,
      countDepsIn_append]
    ring
  have hFQnd : (levels.flatten ++ queue).Nodup := inv.nodupAll
  have hFQsub : ∀ x ∈ levels.flatten ++ queue, x ∈ nodeIds nodes := inv.subIds
  have hdegNonnegN : ∀ n ∈ nodeIds nodes, 0 ≤ (processQueue nodes queue (deg, [])).1 n := by
    intro n hn
    rw [hdegEqN n hn]
    have := countDepsIn_le_initDeg nodes (levels.flatten ++ queue) hFQnd hFQsub n
    omega
  have hLzero : ∀ n ∈ L, (processQueue nodes queue (deg, [])).1 n = 0 := by
    intro n hn
    rcases (hLm n).mp hn with ⟨h1, h2⟩
    have hge := hdegNonnegN n (hLsub n hn)
    have hle : (processQueue nodes queue (deg, [])).1 n ≤ 0 := by
      rw [hdeg n]
      omega
    omega
  rw [hLe]
  refine ⟨?_, ?_, ?_, ?_, ?_, ?_, ?_, ?_, ?_, ?_⟩
  · -- nodupAll
    rw [hfl, List.nodup_append]
    exact ⟨hFQnd, hLnd, hLdisj⟩
  · -- subIds
    intro x hx
    rw [hfl] at hx
    rcases List.mem_append.mp hx with hx | hx
    · exact inv.subIds x hx
    · exact hLsub x hx
  · -- degEq
    intro n hn
    rw [hfl]
    exact hdegEqN n hn
  · -- procNonpos
    intro n hn
    rw [hfl] at hn
    rw [hdeg n]
    have hh := hitsIn_nonneg nodes queue n
    rcases List.mem_append.mp hn with hnf | hnq
    · have := inv.procNonpos n hnf
      omega
    · have := inv.queueZero n hnq
      omega
  · -- queueZero
    exact hLzero
  · -- blockedNonzero
    intro n hn hnf hnq
    rw [hfl] at hnf
    have hnf2 : n ∉ levels.flatten := fun hc => hnf (List.mem_append_left _ hc)
    have hnq2 : n ∉ queue := fun hc => hnf (List.mem_append_right _ hc)
    have hold := inv.blockedNonzero n hn hnf2 hnq2
    have hge := hdegNonneg n hn
    have hnL : ¬ (1 ≤ deg n ∧ deg n ≤ hitsIn nodes queue n) := fun hc => hnq ((hLm n).mpr hc)
    rw [hdeg n]
    omega
  · -- levelDeps
    intro k hk n hn d hd
    rw [List.length_append, List.length_cons, List.length_nil] at hk
    by_cases hkl : k < levels.length
    · rw [List.get_append k hkl] at hn
      rw [List.take_append_of_le_length (by omega)]
      exact inv.levelDeps k hkl n hn d hd
    · have hke : k = levels.length := by omega
      subst hke
      have hq0 : 0 < (([queue] : List (List String))).length := by simp
      have hget : (levels ++ [queue]).get ⟨levels.length, by rw [List.length_append]; omega⟩ =
          ([queue] : List (List String)).get ⟨0, hq0⟩ := by
        simp [List.getElem_append_right]
      rw [hget] at hn
      simp only [List.get_eq_getElem, List.getElem_cons_zero] at hn
      rw [List.take_append_of_le_length (le_refl _), List.take_length]
      exact inv.queueDeps n hn d hd
  · -- levelPrev
    intro k hk hk1 n hn
    rw [List.length_append, List.length_cons, List.length_nil] at hk
    by_cases hkl : k < levels.length
    · rw [List.get_append k hkl] at hn
      have hk1l : k - 1 < levels.length := by omega
      rcases inv.levelPrev k hkl hk1 n hn with ⟨x, hx1, hx2⟩
      refine ⟨x, ?_, hx2⟩
      rw [List.get_append (k - 1) hk1l]
      exact hx1
    · have hke : k = levels.length := by omega
      subst hke
      have hq0 : 0 < (([queue] : List (List String))).length := by simp
      have hget : (levels ++ [queue]).get ⟨levels.length, by rw [List.length_append]; omega⟩ =
          ([queue] : List (List String)).get ⟨0, hq0⟩ := by
        simp [List.getElem_append_right]
      rw [hget] at hn
      simp only [List.get_eq_getElem, List.getElem_cons_zero] at hn
      have hlpos : 0 < levels.length := by omega
      have hlast : levels.getLast? = some (levels.get ⟨levels.length - 1, by omega⟩) := by
        rw [List.getLast?_eq_getElem?, List.getElem?_eq_getElem (by omega)]
        rfl
      rcases inv.queuePrev n hn _ hlast with ⟨x, hx1, hx2⟩
      refine ⟨x, ?_, hx2⟩
      rw [List.get_append (levels.length - 1) (by omega)]
      exact hx1
  · -- queueDeps
    intro n hn d hd
    rw [hfl]
    have h0 := hLzero n hn
    rw [hdegEqN n (hLsub n hn)] at h0
    have hle := countDepsIn_le_initDeg nodes (levels.flatten ++ queue) hFQnd hFQsub n
    exact countDepsIn_eq_imp_subset nodes (levels.flatten ++ queue) hFQnd hFQsub n
      (by omega) d hd
  · -- queuePrev
    intro n hn Lst hLst
    rw [List.getLast?_concat] at hLst
    have hLq : Lst = queue := by
      injection hLst with h
      exact h.symm
    rw [hLq]
    rcases (hLm n).mp hn with ⟨h1, h2⟩
    rcases @hitsIn_pos_exists nodes queue n (by omega) with ⟨x, hxQ, hxc⟩
    exact ⟨x, hxQ, (mem_dependentsOf.mp (List.elem_iff.mp hxc)).2.2⟩

theorem KahnInv.init (nodes : NodeMap) (hwf : wfNodes nodes) :
    KahnInv nodes [] (kahnSeed nodes) (fun n => initDeg nodes n) := by
  refine ⟨?_, ?_, ?_, ?_, ?_, ?_, ?_, ?_, ?_, ?_⟩
  · simpa [kahnSeed] using hwf.filter _
  · intro x hx
    simp only [List.flatten_nil, List.nil_append] at hx
    exact (List.mem_filter.mp hx).1
  · intro n _
    simp [countDepsIn]
  · intro n hn
    simp at hn
  · intro n hn
    rcases List.mem_filter.mp hn with ⟨_, hb⟩
    rw [beq_iff_eq] at hb
    exact hb
  · intro n hn hnf hnq
    simp only [List.flatten_nil] at hnf
    intro hz
    exact hnq (List.mem_filter.mpr ⟨hn, beq_iff_eq.mpr hz⟩)
  · intro k hk
    simp at hk
  · intro k hk
    simp at hk
  · intro n hn d hd
    rcases List.mem_filter.mp hn with ⟨_, hb⟩
    rw [beq_iff_eq] at hb
    unfold initDeg at hb
    have hlen : (inGraphDeps nodes n).length = 0 := by omega
    rw [List.eq_nil_of_length_eq_zero hlen] at hd
    cases hd
  · intro n _ L hL
    simp at hL

theorem kahnLoop_empty (nodes : NodeMap) (fuel : Nat) (queue : List String)
    (deg : String → Int) (levels : List (List String)) (hq : queue.isEmpty = true) :
    kahnLoop nodes fuel queue deg levels = some levels := by
  rw [kahnLoop.eq_def]
  dsimp only
  rw [if_pos hq]

theorem kahnLoop_step (nodes : NodeMap) (f : Nat) (queue : List String)
    (deg : String → Int) (levels : List (List String)) (hq : queue.isEmpty = false) :
    kahnLoop nodes (f + 1) queue deg levels =
      kahnLoop nodes f (processQueue nodes queue (deg, [])).2
        (processQueue nodes queue (deg, [])).1 (levels ++ [queue]) := by
  rw [kahnLoop.eq_def]
  dsimp only
  rw [if_neg (by rw [hq]; exact Bool.false_ne_true)]

theorem kahnLoop_ok (nodes : NodeMap) (hwf : wfNodes nodes) :
    ∀ (fuel : Nat) (levels : List (List String)) (queue : List String) (deg : String → Int),
      KahnInv nodes levels queue deg →
      (nodeIds nodes).length + 1 ≤ fuel + levels.flatten.length →
      ∃ Lv deg2, kahnLoop nodes fuel queue deg levels = some Lv ∧ KahnInv nodes Lv [] deg2 := by
  intro fuel
  induction fuel with
  | zero =>
    intro levels queue deg inv hfuel
    by_cases hq : queue.isEmpty = true
    · rw [List.isEmpty_iff] at hq
      subst hq
      exact ⟨levels, deg, kahnLoop_empty nodes 0 [] deg levels rfl, inv⟩
    · exfalso
      have hflnd : levels.flatten.Nodup := (List.nodup_append.mp inv.nodupAll).1
      have hsub : levels.flatten ⊆ nodeIds nodes :=
        fun x hx => inv.subIds x (List.mem_append_left _ hx)
      have := (List.subperm_of_subset hflnd hsub).length_le
      omega
  | succ f ih =>
    intro levels queue deg inv hfuel
    by_cases hq : queue.isEmpty = true
    · rw [List.isEmpty_iff] at hq
      subst hq
      exact ⟨levels, deg, kahnLoop_empty nodes (f + 1) [] deg levels rfl, inv⟩
    · have hqf : queue.isEmpty = false := Bool.eq_false_iff.mpr hq
      have hqne : queue ≠ [] := by
        intro hc
        rw [hc] at hqf
        cases hqf
      rw [kahnLoop_step nodes f queue deg levels hqf]
      have invN := KahnInv.stepInv nodes hwf levels queue deg inv
      have hql : 1 ≤ queue.length := by
        cases queue with
        | nil => exact absurd rfl hqne
        | cons a as => simp
      have hflN : (levels ++ [queue]).flatten.length = levels.flatten.length + queue.length := by
        rw [List.flatten_append, List.flatten_cons, List.flatten_nil, List.append_nil,
          List.length_append]
      exact ih (levels ++ [queue]) (processQueue nodes queue (deg, [])).2
        (processQueue nodes queue (deg, [])).1 invN (by omega)

theorem buildLeveledDAG_loop (nodes : NodeMap) (hwf : wfNodes nodes) :
    ∃ Lv deg2, kahnLoop nodes (nodes.length + 1) (kahnSeed nodes)
        (fun n => initDeg nodes n) [] = some Lv ∧ KahnInv nodes Lv [] deg2 := by
  have hlen : (nodeIds nodes).length = nodes.length := List.length_map _ _
  exact kahnLoop_ok nodes hwf (nodes.length + 1) [] (kahnSeed nodes)
    (fun n => initDeg nodes n) (KahnInv.init nodes hwf) (by simp [hlen])

theorem countP_levels_zero {levels : List (List String)} {n : String}
    (hn : n ∉ levels.flatten) :
    levels.countP (fun lvl => lvl.contains n) = 0 := by
  induction levels with
  | nil => rfl
  | cons lvl rest ih =>
    rw [List.flatten_cons] at hn
    rw [List.countP_cons]
    have h1 : n ∉ lvl := fun hc => hn (List.mem_append_left _ hc)
    have h2 : n ∉ rest.flatten := fun hc => hn (List.mem_append_right _ hc)
    have hc : (lvl.contains n) = false := by
      rw [Bool.eq_false_iff]
      intro hcc
      exact h1 (List.elem_iff.mp hcc)
    rw [ih h2, hc]
    rfl

theorem countP_levels_one {levels : List (List String)} (hnd : levels.flatten.Nodup)
    {n : String} (hn : n ∈ levels.flatten) :
    levels.countP (fun lvl => lvl.contains n) = 1 := by
  induction levels with
  | nil => cases (by simpa using hn : n ∈ ([] : List String))
  | cons lvl rest ih =>
    rw [List.flatten_cons] at hn hnd
    rcases List.nodup_append.mp hnd with ⟨h1, h2, hdisj⟩
    rw [List.countP_cons]
    by_cases hmem : n ∈ lvl
    · have hc : (lvl.contains n) = true := List.elem_iff.mpr hmem
      have hnr : n ∉ rest.flatten := fun hc2 => hdisj hmem hc2
      rw [countP_levels_zero hnr, hc]
      rfl
    · have hc : (lvl.contains n) = false := by
        rw [Bool.eq_false_iff]
        intro hcc
        exact hmem (List.elem_iff.mp hcc)
      have hnf : n ∈ rest.flatten := by
        rcases List.mem_append.mp hn with h | h
        · exact absurd h hmem
        · exact h
      rw [ih h2 hnf, hc]
      rfl

theorem mem_take_flatten_exists {L : List (List String)} {k : Nat} {d : String}
    (hd : d ∈ (L.take k).flatten) :
    ∃ j, ∃ (hj : j < L.length), j < k ∧ d ∈ L.get ⟨j, hj⟩ := by
  rcases List.mem_flatten.mp hd with ⟨lvl, hlvl, hdl⟩
  rcases List.mem_iff_get.mp hlvl with ⟨⟨j, hj⟩, hget⟩
  have hjlen := hj
  rw [List.length_take] at hjlen
  have hjk : j < k := by omega
  have hjL : j < L.length := by omega
  refine ⟨j, hjL, hjk, ?_⟩
  have hgeq : (L.take k).get ⟨j, hj⟩ = L.get ⟨j, hjL⟩ := by
    simp [List.getElem_take]
  rw [hgeq] at hget
  rw [hget]
  exact hdl

/-- C1: for every item map on which `buildLeveledDAG` succeeds, the returned
levels partition the node set: the flattened order (`getTopologicalOrder`) has
exactly one entry per map key (it is a permutation of the key set, hence its
length is the item count and each item occurs in exactly one level), and every
in-map dependency of an item sits in a strictly lower-numbered level, so
dependencies precede dependents in the flattened order. -/
theorem buildLeveledDAG_partition (nodes : NodeMap) (hwf : wfNodes nodes)
    (dag : DependencyDAG) (h : buildLeveledDAG nodes = .ok dag) :
    (getTopologicalOrder dag).length = nodes.length ∧
    (getTopologicalOrder dag).Perm (nodeIds nodes) ∧
    (∀ n ∈ nodeIds nodes, dag.levels.countP (fun lvl => lvl.contains n) = 1) ∧
    (∀ (k : Nat) (hk : k < dag.levels.length), ∀ n ∈ dag.levels.get ⟨k, hk⟩,
      ∀ d, (depsOf nodes n).contains d = true → hasNode nodes d = true →
        ∃ j, ∃ (hj : j < dag.levels.length), j < k ∧ d ∈ dag.levels.get ⟨j, hj⟩) := by
  obtain ⟨Lv, deg2, hkl, inv⟩ := buildLeveledDAG_loop nodes hwf
  unfold buildLeveledDAG at h
  rw [hkl] at h
  dsimp only at h
  by_cases hlen : Lv.flatten.length = nodes.length
  · rw [if_pos hlen] at h
    have hdag : dag = ⟨Lv, rootsOf nodes, leavesOf nodes⟩ := by
      injection h with h2
      exact h2.symm
    subst hdag
    have hflnd : Lv.flatten.Nodup := by
      have := inv.nodupAll
      rwa [List.append_nil] at this
    have hfsub : ∀ x ∈ Lv.flatten, x ∈ nodeIds nodes := by
      intro x hx
      exact inv.subIds x (by rw [List.append_nil]; exact hx)
    have hperm : Lv.flatten.Perm (nodeIds nodes) := by
      apply (List.subperm_of_subset hflnd hfsub).perm_of_length_le
      rw [hlen]
      simp [nodeIds]
    refine ⟨hlen, hperm, ?_, ?_⟩
    · intro n hn
      exact countP_levels_one hflnd (hperm.mem_iff.mpr hn)
    · intro k hk n hn d hdc hdh
      have hd : d ∈ inGraphDeps nodes n := mem_inGraphDeps.mpr ⟨hdc, hasNode_iff_mem.mp hdh⟩
      exact mem_take_flatten_exists (inv.levelDeps k hk n hn d hd)
  · rw [if_neg hlen] at h
    cases h

theorem buildLeveledDAG_partition_witness :
    wfNodes [⟨"a", []⟩, ⟨"b", ["a"]⟩, ⟨"c", ["a", "b"]⟩] ∧
    buildLeveledDAG [⟨"a", []⟩, ⟨"b", ["a"]⟩, ⟨"c", ["a", "b"]⟩] =
      .ok ⟨[["a"], ["b"], ["c"]], ["c"], ["a"]⟩ ∧
    ((getTopologicalOrder ⟨[["a"], ["b"], ["c"]], ["c"], ["a"]⟩).length =
      ([⟨"a", []⟩, ⟨"b", ["a"]⟩, ⟨"c", ["a", "b"]⟩] : NodeMap).length ∧
    (getTopologicalOrder ⟨[["a"], ["b"], ["c"]], ["c"], ["a"]⟩).Perm
      (nodeIds [⟨"a", []⟩, ⟨"b", ["a"]⟩, ⟨"c", ["a", "b"]⟩]) ∧
    (∀ n ∈ nodeIds [⟨"a", []⟩, ⟨"b", ["a"]⟩, ⟨"c", ["a", "b"]⟩],
      (([["a"], ["b"], ["c"]] : List (List String))).countP (fun lvl => lvl.contains n) = 1) ∧
    (∀ (k : Nat) (hk : k < (([["a"], ["b"], ["c"]] : List (List String))).length),
      ∀ n ∈ (([["a"], ["b"], ["c"]] : List (List String))).get ⟨k, hk⟩,
      ∀ d, (depsOf [⟨"a", []⟩, ⟨"b", ["a"]⟩, ⟨"c", ["a", "b"]⟩] n).contains d = true →
        hasNode [⟨"a", []⟩, ⟨"b", ["a"]⟩, ⟨"c", ["a", "b"]⟩] d = true →
        ∃ j, ∃ (hj : j < (([["a"], ["b"], ["c"]] : List (List String))).length), j < k ∧
          d ∈ (([["a"], ["b"], ["c"]] : List (List String))).get ⟨j, hj⟩)) :=
  ⟨by decide, by decide,
    buildLeveledDAG_partition [⟨"a", []⟩, ⟨"b", ["a"]⟩, ⟨"c", ["a", "b"]⟩] (by decide)
      ⟨[["a"], ["b"], ["c"]], ["c"], ["a"]⟩ (by decide)⟩

theorem chainReaches (nodes : NodeMap) (f : Nat → String)
    (hmem : ∀ k, f k ∈ nodeIds nodes)
    (hstep : ∀ k, stepDepIn nodes (f k) (f (k + 1)) = true) :
    ∀ (fuel i d : Nat), 1 ≤ d → d ≤ fuel + 1 →
      reachesWithin nodes fuel (f i) (f (i + d)) = true := by
  intro fuel
  induction fuel with
  | zero =>
    intro i d h1 h2
    have hd1 : d = 1 := by omega
    subst hd1
    rw [reachesWithin]
    exact hstep i
  | succ fl ih =>
    intro i d h1 h2
    rw [reachesWithin]
    by_cases hd1 : d = 1
    · subst hd1
      rw [hstep i]
      rfl
    · have h2b : reachesWithin nodes fl (f (i + 1)) (f ((i + 1) + (d - 1))) = true :=
        ih (i + 1) (d - 1) (by omega) (by omega)
      rw [show (i + 1) + (d - 1) = i + d from by omega] at h2b
      have hany : (nodeIds nodes).any
          (fun k => stepDepIn nodes (f i) k && reachesWithin nodes fl k (f (i + d))) = true := by
        rw [List.any_eq_true]
        refine ⟨f (i + 1), hmem (i + 1), ?_⟩
        rw [hstep i, h2b]
        rfl
      rw [hany]
      rw [Bool.or_true]

theorem exists_blocked_dep (nodes : NodeMap) (F : List String) (u : String)
    (hdnd : (inGraphDeps nodes u).Nodup)
    (hlt : countDepsIn nodes F u < initDeg nodes u) :
    ∃ d ∈ inGraphDeps nodes u, d ∉ F := by
  by_contra hc
  push_neg at hc
  have hsub : inGraphDeps nodes u ⊆ F.filter (fun x => (depsOf nodes u).contains x) := by
    intro d hd
    exact List.mem_filter.mpr ⟨hc d hd, (mem_inGraphDeps.mp hd).1⟩
  have := (List.subperm_of_subset hdnd hsub).length_le
  unfold countDepsIn initDeg at hlt
  omega

theorem blocked_reaches_cycle (nodes : NodeMap) (hwf : wfNodes nodes)
    (F : List String)
    (hsucc : ∀ u ∈ nodeIds nodes, u ∉ F → ∃ d ∈ inGraphDeps nodes u, d ∉ F)
    (n0 : String) (hn0 : n0 ∈ nodeIds nodes) (hn0F : n0 ∉ F) :
    ∃ m ∈ nodeIds nodes, reachesWithin nodes nodes.length m m = true ∧
      (m = n0 ∨ reachesWithin nodes nodes.length n0 m = true) := by
  have hsuccT : ∀ u : String, ∃ d : String,
      (u ∈ nodeIds nodes ∧ u ∉ F) →
        (d ∈ nodeIds nodes ∧ d ∉ F ∧ stepDepIn nodes u d = true) := by
    intro u
    by_cases hu : u ∈ nodeIds nodes ∧ u ∉ F
    · rcases hsucc u hu.1 hu.2 with ⟨d, hd1, hd2⟩
      rcases mem_inGraphDeps.mp hd1 with ⟨hdc, hdid⟩
      refine ⟨d, fun _ => ⟨hdid, hd2, ?_⟩⟩
      unfold stepDepIn
      rw [hdc, hasNode_iff_mem.mpr hdid]
      rfl
    · exact ⟨u, fun hc => absurd hc hu⟩
  choose nxt hnxt using hsuccT
  have hfS : ∀ k : Nat, nxt^[k + 1] n0 = nxt (nxt^[k] n0) := by
    intro k
    rw [Function.iterate_succ_apply']
  have hfInv : ∀ k : Nat, nxt^[k] n0 ∈ nodeIds nodes ∧ nxt^[k] n0 ∉ F := by
    intro k
    induction k with
    | zero => exact ⟨hn0, hn0F⟩
    | succ k ihk =>
      rw [hfS k]
      have := hnxt (nxt^[k] n0) ihk
      exact ⟨this.1, this.2.1⟩
  have hstep : ∀ k : Nat, stepDepIn nodes (nxt^[k] n0) (nxt^[k + 1] n0) = true := by
    intro k
    rw [hfS k]
    exact (hnxt (nxt^[k] n0) (hfInv k)).2.2
  have hchain : ∀ (fuel i d : Nat), 1 ≤ d → d ≤ fuel + 1 →
      reachesWithin nodes fuel (nxt^[i] n0) (nxt^[i + d] n0) = true :=
    chainReaches nodes (fun k => nxt^[k] n0) (fun k => (hfInv k).1) hstep
  have hNlen : (nodeIds nodes).length = nodes.length := by simp [nodeIds]
  have hcard : (nodeIds nodes).toFinset.card < (Finset.range (nodes.length + 1)).card := by
    rw [Finset.card_range, List.toFinset_card_of_nodup hwf]
    omega
  have hmaps : ∀ a ∈ Finset.range (nodes.length + 1),
      nxt^[a] n0 ∈ (nodeIds nodes).toFinset := by
    intro a _
    rw [List.mem_toFinset]
    exact (hfInv a).1
  rcases Finset.exists_ne_map_eq_of_card_lt_of_maps_to hcard hmaps with
    ⟨i, hi, j, hj, hij, hfij⟩
  rw [Finset.mem_range] at hi hj
  have key : ∀ a b : Nat, a < b → b ≤ nodes.length → nxt^[a] n0 = nxt^[b] n0 →
      ∃ m ∈ nodeIds nodes, reachesWithin nodes nodes.length m m = true ∧
        (m = n0 ∨ reachesWithin nodes nodes.length n0 m = true) := by
    intro a b hab hble hfeq
    refine ⟨nxt^[a] n0, (hfInv a).1, ?_, ?_⟩
    · have hr := hchain nodes.length a (b - a) (by omega) (by omega)
      rw [show a + (b - a) = b from by omega] at hr
      rw [← hfeq] at hr
      exact hr
    · by_cases ha0 : a = 0
      · subst ha0
        exact Or.inl rfl
      · right
        have hr := hchain nodes.length 0 a (by omega) (by omega)
        rw [show 0 + a = a from by omega] at hr
        exact hr
  rcases Nat.lt_or_ge i j with hlt | hge
  · exact key i j hlt (by omega) hfij
  · have hgt : j < i := by omega
    exact key j i hgt (by omega) hfij.symm

theorem findIdx_level_of_mem :
    ∀ (Lv : List (List String)), Lv.flatten.Nodup →
      ∀ (k : Nat) (hk : k < Lv.length) (n : String), n ∈ Lv.get ⟨k, hk⟩ →
        Lv.findIdx (fun lvl => lvl.contains n) = k := by
  intro Lv
  induction Lv with
  | nil =>
    intro _ k hk
    simp at hk
  | cons lvl rest ih =>
    intro hnd k hk n hn
    rw [List.flatten_cons] at hnd
    rcases List.nodup_append.mp hnd with ⟨h1, h2, hdisj⟩
    cases k with
    | zero =>
      simp only [List.get_eq_getElem, List.getElem_cons_zero] at hn
      rw [List.findIdx_cons]
      have hc : lvl.contains n = true := List.elem_iff.mpr hn
      rw [hc]
      rfl
    | succ k2 =>
      simp only [List.get_eq_getElem, List.getElem_cons_succ] at hn
      have hk2 : k2 < rest.length := by
        rw [List.length_cons] at hk
        omega
      have hnr : n ∈ rest.flatten := by
        refine List.mem_flatten.mpr ⟨rest.get ⟨k2, hk2⟩, List.get_mem _ _ _, hn⟩
      have hnl : n ∉ lvl := fun hc => hdisj hc hnr
      rw [List.findIdx_cons]
      have hc : (lvl.contains n) = false := by
        rw [Bool.eq_false_iff]
        intro hcc
        exact hnl (List.elem_iff.mp hcc)
      rw [hc, ih h2 k2 hk2 n hn]
      rfl

theorem le_foldr_max (l : List Nat) (x : Nat) (hx : x ∈ l) : x ≤ l.foldr max 0 := by
  induction l with
  | nil => cases hx
  | cons a rest ih =>
    rw [List.foldr_cons]
    rcases List.mem_cons.mp hx with rfl | hx2
    · exact Nat.le_max_left _ _
    · exact le_trans (ih hx2) (Nat.le_max_right _ _)

theorem foldr_max_le (l : List Nat) (b : Nat) (h : ∀ x ∈ l, x ≤ b) : l.foldr max 0 ≤ b := by
  induction l with
  | nil => exact Nat.zero_le _
  | cons a rest ih =>
    rw [List.foldr_cons]
    refine Nat.max_le.mpr ⟨h a (by simp), ih (fun x hx => h x (by simp [hx]))⟩

/-- C2 counterexample: the map `{a: [], b: [a, a]}` is acyclic, yet
`buildLeveledDAG` reports a cycle: `b`'s in-degree counts the duplicated
dependency twice while the `Set`-based reverse-edge map decrements it only
once, so `b` never reaches in-degree zero. -/
theorem buildLeveledDAG_acyclic_counterexample :
    hasCycle [⟨"a", []⟩, ⟨"b", ["a", "a"]⟩] = false ∧
    buildLeveledDAG [⟨"a", []⟩, ⟨"b", ["a", "a"]⟩] = .error (.cycle ["b"]) := by decide

/-- C2 (amended): for every well-formed acyclic item map whose per-node
in-graph dependency lists are duplicate-free, `buildLeveledDAG` succeeds, and
each item's level is 0 when it has no in-graph dependencies and otherwise one
more than the maximum level of its in-graph dependencies.  (Duplicated
in-graph dependencies make the original claim false: see the
counterexample.) -/
theorem buildLeveledDAG_acyclic_levels (nodes : NodeMap) (hwf : wfNodes nodes)
    (hdnd : ∀ n ∈ nodeIds nodes, (inGraphDeps nodes n).Nodup)
    (hacyc : hasCycle nodes = false) :
    ∃ dag, buildLeveledDAG nodes = .ok dag ∧
      ∀ n ∈ nodeIds nodes,
        dag.levels.findIdx (fun lvl => lvl.contains n) =
          (if inGraphDeps nodes n = [] then 0
           else ((inGraphDeps nodes n).map
             (fun d => dag.levels.findIdx (fun lvl => lvl.contains d))).foldr max 0 + 1) := by
  obtain ⟨Lv, deg2, hkl, inv⟩ := buildLeveledDAG_loop nodes hwf
  have hflnd : Lv.flatten.Nodup := by
    have := inv.nodupAll
    rwa [List.append_nil] at this
  have hfsub : ∀ x ∈ Lv.flatten, x ∈ nodeIds nodes := by
    intro x hx
    exact inv.subIds x (by rw [List.append_nil]; exact hx)
  -- completeness: every key is processed
  have hcomplete : ∀ n ∈ nodeIds nodes, n ∈ Lv.flatten := by
    by_contra hc
    push_neg at hc
    obtain ⟨n0, hn0, hn0F⟩ := hc
    have hsucc : ∀ u ∈ nodeIds nodes, u ∉ Lv.flatten → ∃ d ∈ inGraphDeps nodes u, d ∉ Lv.flatten := by
      intro u hu huF
      have hdne := inv.blockedNonzero u hu huF (by simp)
      rw [inv.degEq u hu] at hdne
      have hle := countDepsIn_le_initDeg nodes Lv.flatten hflnd hfsub u
      exact exists_blocked_dep nodes Lv.flatten u (hdnd u hu) (by omega)
    obtain ⟨m, hm, hmm, _⟩ := blocked_reaches_cycle nodes hwf Lv.flatten hsucc n0 hn0 hn0F
    have : hasCycle nodes = true := by
      unfold hasCycle
      rw [List.any_eq_true]
      exact ⟨m, hm, hmm⟩
    rw [this] at hacyc
    cases hacyc
  have hperm : Lv.flatten.Perm (nodeIds nodes) := by
    apply (List.subperm_of_subset hflnd hfsub).perm_of_length_le
    have : List.Subperm (nodeIds nodes) Lv.flatten := List.subperm_of_subset hwf hcomplete
    exact this.length_le
  have hlen : Lv.flatten.length = nodes.length := by
    have := hperm.length_eq
    simpa [nodeIds] using this
  refine ⟨⟨Lv, rootsOf nodes, leavesOf nodes⟩, ?_, ?_⟩
  · unfold buildLeveledDAG
    rw [hkl]
    dsimp only
    rw [if_pos hlen]
  · intro n hn
    have hnf : n ∈ Lv.flatten := hcomplete n hn
    rcases List.mem_flatten.mp hnf with ⟨lvl, hlvl, hnl⟩
    rcases List.mem_iff_get.mp hlvl with ⟨⟨k, hk⟩, hget⟩
    have hnk : n ∈ Lv.get ⟨k, hk⟩ := by
      rw [hget]
      exact hnl
    have hidx : Lv.findIdx (fun lvl => lvl.contains n) = k :=
      findIdx_level_of_mem Lv hflnd k hk n hnk
    by_cases hdeps : inGraphDeps nodes n = []
    · rw [if_pos hdeps]
      rw [hidx]
      by_contra hk0
      have hk1 : 1 ≤ k := by omega
      rcases inv.levelPrev k hk hk1 n hnk with ⟨x, hx1, hx2⟩
      have hxid : x ∈ nodeIds nodes := by
        apply hfsub
        exact List.mem_flatten.mpr ⟨Lv.get ⟨k - 1, by omega⟩, List.get_mem _ _ _, hx1⟩
      have : x ∈ inGraphDeps nodes n := mem_inGraphDeps.mpr ⟨hx2, hxid⟩
      rw [hdeps] at this
      cases this
    · rw [if_neg hdeps]
      have hk1 : 1 ≤ k := by
        by_contra hk0
        have hk00 : k = 0 := by omega
        subst hk00
        rcases List.exists_mem_of_ne_nil _ hdeps with ⟨d, hd⟩
        have := inv.levelDeps 0 hk n hnk d hd
        simp at this
      -- every dependency's level is < k, and one is exactly k - 1
      have hub : ∀ v ∈ (inGraphDeps nodes n).map
          (fun d => Lv.findIdx (fun lvl => lvl.contains d)), v ≤ k - 1 := by
        intro v hv
        rcases List.mem_map.mp hv with ⟨d, hd, hde⟩
        rcases mem_take_flatten_exists (inv.levelDeps k hk n hnk d hd) with ⟨j, hj, hjk, hdj⟩
        have := findIdx_level_of_mem Lv hflnd j hj d hdj
        omega
      have hlb : k - 1 ∈ (inGraphDeps nodes n).map
          (fun d => Lv.findIdx (fun lvl => lvl.contains d)) := by
        rcases inv.levelPrev k hk hk1 n hnk with ⟨x, hx1, hx2⟩
        have hxid : x ∈ nodeIds nodes := by
          apply hfsub
          exact List.mem_flatten.mpr ⟨Lv.get ⟨k - 1, by omega⟩, List.get_mem _ _ _, hx1⟩
        have hxd : x ∈ inGraphDeps nodes n := mem_inGraphDeps.mpr ⟨hx2, hxid⟩
        refine List.mem_map.mpr ⟨x, hxd, ?_⟩
        exact findIdx_level_of_mem Lv hflnd (k - 1) (by omega) x hx1
      have hmax : ((inGraphDeps nodes n).map
          (fun d => Lv.findIdx (fun lvl => lvl.contains d))).foldr max 0 = k - 1 := by
        have h1 := le_foldr_max _ _ hlb
        have h2 := foldr_max_le _ _ hub
        omega
      rw [hidx, hmax]
      omega

theorem buildLeveledDAG_acyclic_levels_witness :
    wfNodes diamondMap ∧
    (∀ n ∈ nodeIds diamondMap, (inGraphDeps diamondMap n).Nodup) ∧
    hasCycle diamondMap = false ∧
    (∃ dag, buildLeveledDAG diamondMap = .ok dag ∧
      ∀ n ∈ nodeIds diamondMap,
        dag.levels.findIdx (fun lvl => lvl.contains n) =
          (if inGraphDeps diamondMap n = [] then 0
           else ((inGraphDeps diamondMap n).map
             (fun d => dag.levels.findIdx (fun lvl => lvl.contains d))).foldr max 0 + 1)) :=
  ⟨by decide, by decide, by decide,
    buildLeveledDAG_acyclic_levels diamondMap (by decide) (by decide) (by decide)⟩

theorem processed_reaches (nodes : NodeMap) (Lv : List (List String))
    (hflnd : Lv.flatten.Nodup)
    (hLD : ∀ (k : Nat) (hk : k < Lv.length), ∀ n ∈ Lv.get ⟨k, hk⟩,
      ∀ d ∈ inGraphDeps nodes n, d ∈ (Lv.take k).flatten) :
    ∀ (fuel : Nat) (n m : String), n ∈ Lv.flatten → reachesWithin nodes fuel n m = true →
      m ∈ Lv.flatten ∧ Lv.findIdx (fun lvl => lvl.contains m) <
        Lv.findIdx (fun lvl => lvl.contains n) := by
  have hstep : ∀ n m : String, n ∈ Lv.flatten → stepDepIn nodes n m = true →
      m ∈ Lv.flatten ∧ Lv.findIdx (fun lvl => lvl.contains m) <
        Lv.findIdx (fun lvl => lvl.contains n) := by
    intro n m hn hs
    rcases List.mem_flatten.mp hn with ⟨lvl, hlvl, hnl⟩
    rcases List.mem_iff_get.mp hlvl with ⟨⟨k, hk⟩, hget⟩
    have hnk : n ∈ Lv.get ⟨k, hk⟩ := by
      rw [hget]
      exact hnl
    have hidxn := findIdx_level_of_mem Lv hflnd k hk n hnk
    unfold stepDepIn at hs
    rw [Bool.and_eq_true] at hs
    have hmd : m ∈ inGraphDeps nodes n := mem_inGraphDeps.mpr ⟨hs.1, hasNode_iff_mem.mp hs.2⟩
    rcases mem_take_flatten_exists (hLD k hk n hnk m hmd) with ⟨j, hj, hjk, hmj⟩
    have hidxm := findIdx_level_of_mem Lv hflnd j hj m hmj
    refine ⟨List.mem_flatten.mpr ⟨Lv.get ⟨j, hj⟩, List.get_mem _ _ _, hmj⟩, ?_⟩
    omega
  intro fuel
  induction fuel with
  | zero =>
    intro n m hn hr
    rw [reachesWithin] at hr
    exact hstep n m hn hr
  | succ fl ih =>
    intro n m hn hr
    rw [reachesWithin] at hr
    rw [Bool.or_eq_true] at hr
    rcases hr with hr | hr
    · exact hstep n m hn hr
    · rw [List.any_eq_true] at hr
      rcases hr with ⟨k2, hk2, hb⟩
      rw [Bool.and_eq_true] at hb
      have h1 := hstep n k2 hn hb.1
      have h2 := ih k2 m h1.1 hb.2
      exact ⟨h2.1, by omega⟩

/-- C3 counterexample: on the map `{a: [a], b: [a]}` the cycle's member set is
`{a}`, but the error enumerates `a, b`: the unresolved set also contains every
node transitively depending on the cycle, not only the cycle's members. -/
theorem buildLeveledDAG_cycle_members_counterexample :
    buildLeveledDAG cycleMap = .error (.cycle ["a", "b"]) ∧
    cycleMembers cycleMap = ["a"] ∧
    (["a", "b"] : List String) ≠ ["a"] := by decide

/-- C3 (amended): for every well-formed map with duplicate-free in-graph
dependency lists that contains a cycle, `buildLeveledDAG` fails with a cycle
error, and the identifiers enumerated in the error are exactly the keys that
lie on a cycle or transitively depend on a key that does, listed in map
iteration order.  (The original claim's "exactly the cycle's member
identifiers" fails as soon as a non-cycle node depends on the cycle: see the
counterexample.) -/
theorem buildLeveledDAG_cycle_error (nodes : NodeMap) (hwf : wfNodes nodes)
    (hdnd : ∀ n ∈ nodeIds nodes, (inGraphDeps nodes n).Nodup)
    (hcyc : hasCycle nodes = true) :
    buildLeveledDAG nodes = .error (.cycle
      ((nodeIds nodes).filter (fun n => blockedByCycle nodes n))) := by
  obtain ⟨Lv, deg2, hkl, inv⟩ := buildLeveledDAG_loop nodes hwf
  have hflnd : Lv.flatten.Nodup := by
    have := inv.nodupAll
    rwa [List.append_nil] at this
  have hfsub : ∀ x ∈ Lv.flatten, x ∈ nodeIds nodes := by
    intro x hx
    exact inv.subIds x (by rw [List.append_nil]; exact hx)
  have hpr := processed_reaches nodes Lv hflnd inv.levelDeps
  unfold hasCycle at hcyc
  rw [List.any_eq_true] at hcyc
  obtain ⟨m, hm, hmm⟩ := hcyc
  have hmnf : m ∉ Lv.flatten := by
    intro hc
    exact absurd (hpr nodes.length m m hc hmm).2 (by omega)
  have hlen : Lv.flatten.length ≠ nodes.length := by
    intro hc
    have hperm : Lv.flatten.Perm (nodeIds nodes) := by
      apply (List.subperm_of_subset hflnd hfsub).perm_of_length_le
      rw [hc]
      simp [nodeIds]
    exact hmnf (hperm.mem_iff.mpr hm)
  have hsucc : ∀ u ∈ nodeIds nodes, u ∉ Lv.flatten →
      ∃ d ∈ inGraphDeps nodes u, d ∉ Lv.flatten := by
    intro u hu huF
    have hdne := inv.blockedNonzero u hu huF (by simp)
    rw [inv.degEq u hu] at hdne
    have hle := countDepsIn_le_initDeg nodes Lv.flatten hflnd hfsub u
    exact exists_blocked_dep nodes Lv.flatten u (hdnd u hu) (by omega)
  have hpoint : ∀ n ∈ nodeIds nodes,
      (!(Lv.flatten.contains n)) = blockedByCycle nodes n := by
    intro n hnid
    cases hb : blockedByCycle nodes n with
    | true =>
      unfold blockedByCycle at hb
      rw [List.any_eq_true] at hb
      obtain ⟨m2, hm2, hb2⟩ := hb
      rw [Bool.and_eq_true] at hb2
      have hnotf : n ∉ Lv.flatten := by
        intro hc
        have hb22 := hb2.2
        rw [Bool.or_eq_true] at hb22
        rcases hb22 with he | hr
        · rw [beq_iff_eq] at he
          have hreach : reachesWithin nodes nodes.length n n = true := by
            rw [← he]
            exact hb2.1
          exact absurd (hpr nodes.length n n hc hreach).2 (by omega)
        · have h1 := hpr nodes.length n m2 hc hr
          exact absurd (hpr nodes.length m2 m2 h1.1 hb2.1).2 (by omega)
      have hcf : Lv.flatten.contains n = false := by
        rw [Bool.eq_false_iff]
        intro hc
        exact hnotf (List.elem_iff.mp hc)
      rw [hcf]
      rfl
    | false =>
      have hnf : n ∈ Lv.flatten := by
        by_contra hnotf
        obtain ⟨m2, hm2id, hm2c, hm2r⟩ :=
          blocked_reaches_cycle nodes hwf Lv.flatten hsucc n hnid hnotf
        have hbt : blockedByCycle nodes n = true := by
          unfold blockedByCycle
          rw [List.any_eq_true]
          refine ⟨m2, hm2id, ?_⟩
          rw [hm2c]
          rcases hm2r with rfl | hr
          · simp
          · rw [hr]
            simp
        rw [hbt] at hb
        cases hb
      have hct : Lv.flatten.contains n = true := List.elem_iff.mpr hnf
      rw [hct]
      rfl
  unfold buildLeveledDAG
  rw [hkl]
  dsimp only
  rw [if_neg hlen]
  rw [List.filter_congr hpoint]

theorem buildLeveledDAG_cycle_error_witness :
    wfNodes cycleMap ∧
    (∀ n ∈ nodeIds cycleMap, (inGraphDeps cycleMap n).Nodup) ∧
    hasCycle cycleMap = true ∧
    buildLeveledDAG cycleMap = .error (.cycle
      ((nodeIds cycleMap).filter (fun n => blockedByCycle cycleMap n))) :=
  ⟨by decide, by decide, by decide,
    buildLeveledDAG_cycle_error cycleMap (by decide) (by decide) (by decide)⟩

/-! ## Out-of-map dependencies are inert (claim C7) -/

theorem nodeIds_prune (nodes : NodeMap) : nodeIds (pruneDeps nodes) = nodeIds nodes := by
  unfold nodeIds pruneDeps
  rw [List.map_map]
  apply List.map_congr_left
  intro a _
  rfl

theorem hasNode_prune_fun (nodes : NodeMap) : hasNode (pruneDeps nodes) = hasNode nodes := by
  funext x
  unfold hasNode
  rw [nodeIds_prune]

theorem find?_prune (nodes : NodeMap) :
    ∀ (ms : NodeMap) (x : String),
      (ms.map (pruneNode nodes)).find? (fun nd => nd.id == x) =
        (ms.find? (fun nd => nd.id == x)).map (pruneNode nodes) := by
  intro ms
  induction ms with
  | nil => intro x; rfl
  | cons a rest ih =>
    intro x
    rw [List.map_cons, List.find?_cons, List.find?_cons]
    have hpe : ((pruneNode nodes a).id == x) = (a.id == x) := rfl
    rw [hpe]
    cases h : (a.id == x) with
    | true => rfl
    | false => exact ih x

theorem depsOf_prune (nodes : NodeMap) (x : String) :
    depsOf (pruneDeps nodes) x = (depsOf nodes x).filter (fun d => hasNode nodes d) := by
  unfold depsOf getNode pruneDeps
  rw [find?_prune nodes nodes x]
  cases h : nodes.find? (fun nd => nd.id == x) with
  | none => rfl
  | some nd => rfl

theorem inGraphDeps_prune (nodes : NodeMap) : inGraphDeps (pruneDeps nodes) = inGraphDeps nodes := by
  funext x
  unfold inGraphDeps
  rw [depsOf_prune, hasNode_prune_fun]
  rw [List.filter_filter]
  apply List.filter_congr
  intro d _
  rw [Bool.and_self]

theorem initDeg_prune_fun (nodes : NodeMap) :
    (fun n => initDeg (pruneDeps nodes) n) = (fun n => initDeg nodes n) := by
  funext n
  unfold initDeg
  rw [inGraphDeps_prune]

theorem dependentsOf_prune (nodes : NodeMap) :
    dependentsOf (pruneDeps nodes) = dependentsOf nodes := by
  funext x
  unfold dependentsOf
  rw [hasNode_prune_fun, nodeIds_prune]
  by_cases h : hasNode nodes x
  · rw [if_pos h, if_pos h]
    apply List.filter_congr
    intro n _
    rw [depsOf_prune]
    cases hc : (depsOf nodes n).contains x with
    | true =>
      exact List.elem_iff.mpr (List.mem_filter.mpr ⟨List.elem_iff.mp hc, h⟩)
    | false =>
      rw [Bool.eq_false_iff]
      intro hcc
      have hx : x ∈ depsOf nodes n := (List.mem_filter.mp (List.elem_iff.mp hcc)).1
      have hct : (depsOf nodes n).contains x = true := List.elem_iff.mpr hx
      rw [hct] at hc
      cases hc
  · rw [if_neg h, if_neg h]

theorem processQueue_ext (n1 n2 : NodeMap) (hdep : dependentsOf n1 = dependentsOf n2) :
    ∀ (Q : List String) (st : (String → Int) × List String),
      processQueue n1 Q st = processQueue n2 Q st := by
  intro Q
  induction Q with
  | nil => intro st; rfl
  | cons x rest ih =>
    intro st
    show processQueue n1 rest (decDeps (dependentsOf n1 x) st) =
      processQueue n2 rest (decDeps (dependentsOf n2 x) st)
    rw [hdep]
    exact ih _

theorem kahnLoop_ext (n1 n2 : NodeMap) (hdep : dependentsOf n1 = dependentsOf n2) :
    ∀ (fuel : Nat) (queue : List String) (deg : String → Int)
      (levels : List (List String)),
      kahnLoop n1 fuel queue deg levels = kahnLoop n2 fuel queue deg levels := by
  intro fuel
  induction fuel with
  | zero =>
    intro queue deg levels
    by_cases hq : queue.isEmpty = true
    · rw [kahnLoop_empty _ _ _ _ _ hq, kahnLoop_empty _ _ _ _ _ hq]
    · rw [kahnLoop.eq_def, kahnLoop.eq_def]
  | succ f ih =>
    intro queue deg levels
    by_cases hq : queue.isEmpty = true
    · rw [kahnLoop_empty _ _ _ _ _ hq, kahnLoop_empty _ _ _ _ _ hq]
    · have hqf : queue.isEmpty = false := Bool.eq_false_iff.mpr hq
      rw [kahnLoop_step _ _ _ _ _ hqf, kahnLoop_step _ _ _ _ _ hqf]
      rw [processQueue_ext n1 n2 hdep, ih]

theorem rootsOf_prune (nodes : NodeMap) : rootsOf (pruneDeps nodes) = rootsOf nodes := by
  unfold rootsOf
  rw [nodeIds_prune, dependentsOf_prune]

theorem leavesOf_prune (nodes : NodeMap) : leavesOf (pruneDeps nodes) = leavesOf nodes := by
  unfold leavesOf
  rw [nodeIds_prune, inGraphDeps_prune]

theorem kahnSeed_prune (nodes : NodeMap) : kahnSeed (pruneDeps nodes) = kahnSeed nodes := by
  unfold kahnSeed
  rw [nodeIds_prune]
  apply List.filter_congr
  intro n _
  have h := congrArg (fun f => f n) (initDeg_prune_fun nodes)
  simp only at h
  rw [h]

/-- C7: dependency identifiers that are not map keys have no effect on
`buildLeveledDAG`: the result on any map equals the result on the same map
with out-of-map dependencies removed (same levels, roots and leaves, same
cycle error), and on success every identifier in the levels, roots and leaves
is a map key, so out-of-map identifiers never appear in them. -/
theorem buildLeveledDAG_ignores_out_of_map (nodes : NodeMap) :
    buildLeveledDAG (pruneDeps nodes) = buildLeveledDAG nodes ∧
    (wfNodes nodes → ∀ dag, buildLeveledDAG nodes = .ok dag →
      (∀ x ∈ getTopologicalOrder dag, hasNode nodes x = true) ∧
      (∀ x ∈ dag.roots, hasNode nodes x = true) ∧
      (∀ x ∈ dag.leaves, hasNode nodes x = true)) := by
  constructor
  · unfold buildLeveledDAG
    have hlen : (pruneDeps nodes).length = nodes.length := List.length_map _ _
    rw [hlen, kahnSeed_prune, initDeg_prune_fun,
      kahnLoop_ext (pruneDeps nodes) nodes (dependentsOf_prune nodes),
      nodeIds_prune, rootsOf_prune, leavesOf_prune]
  · intro hwf dag h
    obtain ⟨Lv, deg2, hkl, inv⟩ := buildLeveledDAG_loop nodes hwf
    unfold buildLeveledDAG at h
    rw [hkl] at h
    dsimp only at h
    by_cases hlen : Lv.flatten.length = nodes.length
    · rw [if_pos hlen] at h
      have hdag : dag = ⟨Lv, rootsOf nodes, leavesOf nodes⟩ := by
        injection h with h2
        exact h2.symm
      subst hdag
      refine ⟨?_, ?_, ?_⟩
      · intro x hx
        apply hasNode_iff_mem.mpr
        exact inv.subIds x (by rw [List.append_nil]; exact hx)
      · intro x hx
        apply hasNode_iff_mem.mpr
        exact (List.mem_filter.mp hx).1
      · intro x hx
        apply hasNode_iff_mem.mpr
        exact (List.mem_filter.mp hx).1
    · rw [if_neg hlen] at h
      cases h

theorem buildLeveledDAG_ignores_out_of_map_witness :
    buildLeveledDAG (pruneDeps [⟨"a", []⟩, ⟨"b", ["a", "external"]⟩]) =
      buildLeveledDAG [⟨"a", []⟩, ⟨"b", ["a", "external"]⟩] ∧
    ((∀ x ∈ getTopologicalOrder ⟨[["a"], ["b"]], ["b"], ["a"]⟩,
        hasNode [⟨"a", []⟩, ⟨"b", ["a", "external"]⟩] x = true) ∧
      (∀ x ∈ (⟨[["a"], ["b"]], ["b"], ["a"]⟩ : DependencyDAG).roots,
        hasNode [⟨"a", []⟩, ⟨"b", ["a", "external"]⟩] x = true) ∧
      (∀ x ∈ (⟨[["a"], ["b"]], ["b"], ["a"]⟩ : DependencyDAG).leaves,
        hasNode [⟨"a", []⟩, ⟨"b", ["a", "external"]⟩] x = true)) :=
  ⟨(buildLeveledDAG_ignores_out_of_map [⟨"a", []⟩, ⟨"b", ["a", "external"]⟩]).1,
    (buildLeveledDAG_ignores_out_of_map [⟨"a", []⟩, ⟨"b", ["a", "external"]⟩]).2
      (by decide) ⟨[["a"], ["b"]], ["b"], ["a"]⟩ (by decide)⟩
